import Mathlib

/-!
# NFA to DFA conversion (`finite_automata.c`)

A shallow embedding of the subset construction of `src/finite_automata.c`
together with the bit-vector state sets and the state-set registry it is built
on, and of `process_file` of `src/main.c`, followed by theorems about the
produced automaton.

Conventions of the embedding.

* C arrays are lists.  A read at index `i` is `List.getD`, a store is
  `List.set`; reads and stores outside an array are undefined in C and are
  modelled as reading a zeroed element and as leaving the array unchanged.
  Every theorem about the result of `convert_nfa_to_dfa` assumes a well-formed
  automaton (`nfa_wf`), for which no such access happens.  `process_file` can
  hand the conversion an automaton that is not well-formed; what the model
  returns for it stands for a run that is undefined in C.
* A linked list of transitions is the list of its nodes, head first.
* `char` symbols are their character codes (`'a'` is `97`), `size_t` values are
  natural numbers.
* An `int64_t` word of a bitset is the natural number below `2 ^ 64` with the
  same bit pattern.  The code only uses `|`, `&`, `<<` of `1` by less than 64
  and comparison with `0` or with another word, which act on the bit pattern.
* Loops whose bound does not change are folds over `List.range`; a loop that
  returns from its body at the first hit is `List.find?` / `List.any` /
  `List.all` over `List.range`.  The discovery loop, whose bound grows while it
  runs, takes a fuel argument and returns `none` when the fuel runs out.
-/

namespace SysProgLab2

/-! ## Data model (`finite_automata.h`) -/

/-- Value of the constant `MAX_ALPHABET_SIZE` of `finite_automata.h`. -/
def MAX_ALPHABET_SIZE : Nat := 26

/-- Value of the constant `BITSET_ELEMENT_SIZE`. -/
def BITSET_ELEMENT_SIZE : Nat := 64

/-- Character code of `'a'`. -/
def CHAR_a : Nat := 97

/-- Node of a transition list: `struct finite_automata_transition` without the
`next` pointer, which is the tail of the list. -/
structure finite_automata_transition where
  symbol : Nat
  to_state : Nat
deriving DecidableEq

/-- State of an automaton: `struct finite_automata_state`. -/
structure finite_automata_state where
  is_final : Bool
  first_transition : List finite_automata_transition
deriving DecidableEq

/-- Automaton: `struct finite_automata`. -/
structure finite_automata where
  alphabet_size : Nat
  state_number : Nat
  initial_state : Nat
  states : List finite_automata_state
deriving DecidableEq

/-- A zeroed `struct finite_automata_state`, as `calloc` returns it. -/
def zero_state : finite_automata_state := ⟨false, []⟩

/-- Function `init_finite_automata_states`: `state_number` zeroed states. -/
def init_finite_automata_states (fa : finite_automata) : finite_automata :=
  { fa with states := List.replicate fa.state_number zero_state }

/-- Function `add_finite_automata_transition`: the new transition becomes the
head of the list of `from_state`. -/
def add_finite_automata_transition (fa : finite_automata) (from_state symbol to_state : Nat) :
    finite_automata :=
  let old := fa.states.getD from_state zero_state
  { fa with
    states := fa.states.set from_state
      { old with first_transition := ⟨symbol, to_state⟩ :: old.first_transition } }

/-- Function `set_finite_automata_final_state`. -/
def set_finite_automata_final_state (fa : finite_automata) (state : Nat) : finite_automata :=
  let old := fa.states.getD state zero_state
  { fa with states := fa.states.set state { old with is_final := true } }

/-! ## State sets (`struct dfa_state`) -/

/-- A set of NFA states: `struct dfa_state`, the bitset being the list of its
words. -/
structure dfa_state where
  nfa_state_number : Nat
  bitset : List Nat
deriving DecidableEq

/-- A zeroed `struct dfa_state` (null bitset), as `calloc` returns it. -/
def zero_dfa_state : dfa_state := ⟨0, []⟩

/-- Function `create_dfa_state`: `nfa_state_number / 64 + 1` zero words. -/
def create_dfa_state (nfa_state_number : Nat) : dfa_state :=
  { nfa_state_number := nfa_state_number
    bitset := List.replicate (nfa_state_number / BITSET_ELEMENT_SIZE + 1) 0 }

/-- Function `is_dfa_state_empty`: no word of the bitset is non-zero. -/
def is_dfa_state_empty (dfa_st : dfa_state) : Bool :=
  (List.range (dfa_st.nfa_state_number / BITSET_ELEMENT_SIZE + 1)).all
    (fun i => dfa_st.bitset.getD i 0 == 0)

/-- Function `dfa_state_contains_nfa_state`: the masked word, converted to
`bool`. -/
def dfa_state_contains_nfa_state (dfa_st : dfa_state) (nfa_state : Nat) : Bool :=
  let bitset_element := nfa_state / BITSET_ELEMENT_SIZE
  let bitset_element_bit := nfa_state % BITSET_ELEMENT_SIZE
  (dfa_st.bitset.getD bitset_element 0) &&& (1 <<< bitset_element_bit) != 0

/-- Function `add_nfa_state_to_dfa_state`. -/
def add_nfa_state_to_dfa_state (dfa_st : dfa_state) (nfa_state : Nat) : dfa_state :=
  let bitset_element := nfa_state / BITSET_ELEMENT_SIZE
  let bitset_element_bit := nfa_state % BITSET_ELEMENT_SIZE
  { dfa_st with
    bitset := dfa_st.bitset.set bitset_element
      (dfa_st.bitset.getD bitset_element 0 ||| (1 <<< bitset_element_bit)) }

/-- Function `copy_dfa_state`: a fresh bitset holding the first
`nfa_state_number / 64 + 1` words of the original. -/
def copy_dfa_state (state : dfa_state) : dfa_state :=
  { nfa_state_number := state.nfa_state_number
    bitset := (List.range (state.nfa_state_number / BITSET_ELEMENT_SIZE + 1)).map
      (fun i => state.bitset.getD i 0) }

/-- Function `compare_dfa_states`. -/
def compare_dfa_states (a b : dfa_state) : Bool :=
  if a.nfa_state_number != b.nfa_state_number then false
  else (List.range (a.nfa_state_number / BITSET_ELEMENT_SIZE + 1)).all
    (fun i => a.bitset.getD i 0 == b.bitset.getD i 0)

/-! ## Registry of state sets (`struct dfa_state_registry`) -/

/-- Registry: `struct dfa_state_registry`; `data` has `capacity` slots of which
the first `size` are in use. -/
structure dfa_state_registry where
  size : Nat
  capacity : Nat
  data : List dfa_state
deriving DecidableEq

/-- Function `init_dfa_state_registry`. -/
def init_dfa_state_registry : dfa_state_registry :=
  { size := 0, capacity := 1, data := List.replicate 1 zero_dfa_state }

/-- Function `get_dfa_state_from_registry_by_id`. -/
def get_dfa_state_from_registry_by_id (registry : dfa_state_registry) (id : Nat) : dfa_state :=
  registry.data.getD id zero_dfa_state

/-- Function `get_registry_state_number`. -/
def get_registry_state_number (registry : dfa_state_registry) : Nat :=
  registry.size

/-- The scan `for (i = 0; i < registry->size; ++i) if (compare_dfa_states(state,
registry->data[i])) ...` shared by `is_dfa_state_in_registry`,
`add_dfa_state_to_registry` and `get_state_id_from_registry`: the first index
that compares equal, if there is one. -/
def registry_scan (registry : dfa_state_registry) (state : dfa_state) : Option Nat :=
  (List.range registry.size).find?
    (fun i => compare_dfa_states state (registry.data.getD i zero_dfa_state))

/-- Function `is_dfa_state_in_registry`. -/
def is_dfa_state_in_registry (registry : dfa_state_registry) (state : dfa_state) : Bool :=
  (registry_scan registry state).isSome

/-- The growth branch of `add_dfa_state_to_registry`: a zeroed array of twice
the capacity receives the old slots. -/
def grow_registry (registry : dfa_state_registry) : dfa_state_registry :=
  { registry with
    data := (List.range (registry.capacity * 2)).map (fun i =>
      if i < registry.capacity then registry.data.getD i zero_dfa_state else zero_dfa_state)
    capacity := registry.capacity * 2 }

/-- Function `add_dfa_state_to_registry`: the registry after the call and the
returned id. -/
def add_dfa_state_to_registry (registry : dfa_state_registry) (state : dfa_state) :
    dfa_state_registry × Nat :=
  match registry_scan registry state with
  | some i => (registry, i)
  | none =>
    let registry := if registry.size ≥ registry.capacity then grow_registry registry else registry
    ({ registry with
        data := registry.data.set registry.size (copy_dfa_state state)
        size := registry.size + 1 }, registry.size)

/-- Function `get_state_id_from_registry`; `(size_t) -1` when the scan fails. -/
def get_state_id_from_registry (registry : dfa_state_registry) (state : dfa_state) : Nat :=
  match registry_scan registry state with
  | some i => i
  | none => 2 ^ 64 - 1

/-! ## Subset construction (`convert_nfa_to_dfa`) -/

/-- The `while (transition)` loop (lines 285-290, 329-334): every transition of
the list adds its target to the set of its symbol.  A symbol below `'a'` gives
a negative index, a store outside the array. -/
def add_transition_targets (transition_to : List dfa_state)
    (first_transition : List finite_automata_transition) : List dfa_state :=
  first_transition.foldl (fun transition_to transition =>
    if transition.symbol < CHAR_a then transition_to
    else
      let i := transition.symbol - CHAR_a
      transition_to.set i
        (add_nfa_state_to_dfa_state (transition_to.getD i zero_dfa_state) transition.to_state))
    transition_to

/-- The array `transition_to` after lines 274-277: one empty set per symbol. -/
def fresh_transition_to (input_nfa : finite_automata) : List dfa_state :=
  (List.range input_nfa.alphabet_size).map (fun _ => create_dfa_state input_nfa.state_number)

/-- Lines 273-291 of the discovery loop: the array `transition_to` computed for
the state set `dfa_st`. -/
def fill_transition_to (input_nfa : finite_automata) (dfa_st : dfa_state) : List dfa_state :=
  (List.range input_nfa.state_number).foldl (fun transition_to input_state =>
    if !dfa_state_contains_nfa_state dfa_st input_state then transition_to
    else add_transition_targets transition_to
      (input_nfa.states.getD input_state zero_state).first_transition)
    (fresh_transition_to input_nfa)

/-- Lines 293-302: every non-empty set of `transition_to` that is not in the
registry is added to it. -/
def add_new_states (input_nfa : finite_automata) (transition_to : List dfa_state)
    (registry : dfa_state_registry) : dfa_state_registry :=
  (List.range input_nfa.alphabet_size).foldl (fun registry i =>
    if is_dfa_state_empty (transition_to.getD i zero_dfa_state)
        || is_dfa_state_in_registry registry (transition_to.getD i zero_dfa_state) then registry
    else (add_dfa_state_to_registry registry (transition_to.getD i zero_dfa_state)).1)
    registry

/-- The discovery loop of lines 270-303, started at `output_state_id`.  Its
bound is the size of the registry, which grows in the body; `none` when the
fuel is used up before the loop ends. -/
def discovery_loop (input_nfa : finite_automata) :
    Nat → Nat → dfa_state_registry → Option dfa_state_registry
  | 0, _, _ => none
  | fuel + 1, output_state_id, registry =>
    if output_state_id < get_registry_state_number registry then
      let dfa_st := get_dfa_state_from_registry_by_id registry output_state_id
      let transition_to := fill_transition_to input_nfa dfa_st
      discovery_loop input_nfa fuel (output_state_id + 1)
        (add_new_states input_nfa transition_to registry)
    else some registry

/-- Lines 262-268: the registry holding the set of the initial state, and the
id it got. -/
def initial_registry (input_nfa : finite_automata) : dfa_state_registry × Nat :=
  add_dfa_state_to_registry init_dfa_state_registry
    (add_nfa_state_to_dfa_state (create_dfa_state input_nfa.state_number) input_nfa.initial_state)

/-- Lines 262-303: the registry at the end of discovery. -/
def discover (fuel : Nat) (input_nfa : finite_automata) : Option dfa_state_registry :=
  discovery_loop input_nfa fuel 0 (initial_registry input_nfa).1

/-- Lines 319-335 of the second loop: the members of `dfa_st` are visited in
ascending order; a final member marks `output_state_id` final, and its
transitions are added to `transition_to`. -/
def fill_final_and_transition_to (input_nfa : finite_automata) (dfa_st : dfa_state)
    (output_dfa : finite_automata) (output_state_id : Nat) :
    finite_automata × List dfa_state :=
  (List.range input_nfa.state_number).foldl (fun acc input_state =>
    if !dfa_state_contains_nfa_state dfa_st input_state then acc
    else
      let output_dfa :=
        if (input_nfa.states.getD input_state zero_state).is_final then
          set_finite_automata_final_state acc.1 output_state_id
        else acc.1
      (output_dfa, add_transition_targets acc.2
        (input_nfa.states.getD input_state zero_state).first_transition))
    (output_dfa, fresh_transition_to input_nfa)

/-- Lines 337-348: one transition per symbol is added to `output_state_id`; an
empty target set is replaced by a copy of the set of `output_state_id`. -/
def add_output_transitions (input_nfa : finite_automata) (registry : dfa_state_registry)
    (dfa_st : dfa_state) (transition_to : List dfa_state)
    (output_dfa : finite_automata) (output_state_id : Nat) : finite_automata :=
  (List.range input_nfa.alphabet_size).foldl (fun output_dfa i =>
    let target :=
      if is_dfa_state_empty (transition_to.getD i zero_dfa_state) then copy_dfa_state dfa_st
      else transition_to.getD i zero_dfa_state
    let to_state := get_state_id_from_registry registry target
    add_finite_automata_transition output_dfa output_state_id (CHAR_a + i) to_state)
    output_dfa

/-- Body of the second loop (lines 311-348) for one `output_state_id`. -/
def fill_output_state (input_nfa : finite_automata) (registry : dfa_state_registry)
    (output_dfa : finite_automata) (output_state_id : Nat) : finite_automata :=
  let dfa_st := get_dfa_state_from_registry_by_id registry output_state_id
  let filled := fill_final_and_transition_to input_nfa dfa_st output_dfa output_state_id
  add_output_transitions input_nfa registry dfa_st filled.2 filled.1 output_state_id

/-- Lines 305-349: the output automaton built from the registry of the
discovery; `initial_state` is the id the initial set got. -/
def materialize (input_nfa : finite_automata) (initial_state : Nat)
    (registry : dfa_state_registry) : finite_automata :=
  let output_dfa : finite_automata :=
    init_finite_automata_states
      { alphabet_size := input_nfa.alphabet_size
        state_number := get_registry_state_number registry
        initial_state := initial_state
        states := [] }
  (List.range output_dfa.state_number).foldl (fill_output_state input_nfa registry) output_dfa

/-- Function `convert_nfa_to_dfa`: the automaton written to `output_dfa`, or
`none` when the discovery loop does not end within `fuel` iterations. -/
def convert_nfa_to_dfa (fuel : Nat) (input_nfa : finite_automata) : Option finite_automata :=
  (discover fuel input_nfa).map (materialize input_nfa (initial_registry input_nfa).2)

/-! ## Well-formed state sets -/

/-- A state set over `n` NFA states as `create_dfa_state` and
`add_nfa_state_to_dfa_state` with states below `n` build it. -/
def state_set_wf (n : Nat) (s : dfa_state) : Prop :=
  s.nfa_state_number = n ∧ s.bitset.length = n / 64 + 1 ∧
    (∀ w ∈ s.bitset, w < 2 ^ 64) ∧ ∀ q, n ≤ q → dfa_state_contains_nfa_state s q = false

/-! ## Registry invariants -/

/-- Shape of a registry: `data` has `capacity` slots, `size` of them in use. -/
def registry_ok (r : dfa_state_registry) : Prop :=
  r.size ≤ r.capacity ∧ r.data.length = r.capacity ∧ 1 ≤ r.capacity

/-- No two slots in use compare equal. -/
def registry_distinct (r : dfa_state_registry) : Prop :=
  ∀ i j, i < r.size → j < r.size → i ≠ j →
    compare_dfa_states (get_dfa_state_from_registry_by_id r i)
      (get_dfa_state_from_registry_by_id r j) = false

/-- The registry in which `add_dfa_state_to_registry` stores a new set: grown
when it is full. -/
def room_registry (r : dfa_state_registry) : dfa_state_registry :=
  if r.size ≥ r.capacity then grow_registry r else r

/-! ## Well-formed automata and the move sets -/

/-- Well-formed automaton: the bounds the conversion relies on, and a `states`
array of `state_number` elements. -/
def nfa_wf (nfa : finite_automata) : Prop :=
  1 ≤ nfa.state_number ∧ nfa.initial_state < nfa.state_number ∧
  1 ≤ nfa.alphabet_size ∧ nfa.alphabet_size ≤ MAX_ALPHABET_SIZE ∧
  nfa.states.length = nfa.state_number ∧
  ∀ s ∈ nfa.states, ∀ t ∈ s.first_transition,
    CHAR_a ≤ t.symbol ∧ t.symbol < CHAR_a + nfa.alphabet_size ∧ t.to_state < nfa.state_number

instance (nfa : finite_automata) : Decidable (nfa_wf nfa) := by
  unfold nfa_wf; infer_instance

/-- The transition list of state `p`. -/
def transitions_of (fa : finite_automata) (p : Nat) : List finite_automata_transition :=
  (fa.states.getD p zero_state).first_transition

/-- Membership in move(S, c) for the symbol `c = 'a' + i`: `q` is the target
of a transition labelled `c` that leaves a member of `S`. -/
def in_move (nfa : finite_automata) (S : dfa_state) (i q : Nat) : Prop :=
  ∃ p, p < nfa.state_number ∧ dfa_state_contains_nfa_state S p = true ∧
    ∃ t ∈ transitions_of nfa p, t.symbol = CHAR_a + i ∧ t.to_state = q

/-- An array of `k` well-formed state sets over `n` states. -/
def transition_to_wf (n k : Nat) (tt : List dfa_state) : Prop :=
  tt.length = k ∧ ∀ i, i < k → state_set_wf n (tt.getD i zero_dfa_state)

/-- The first loop of the body, run over the states below `m` only. -/
def fill_transition_to_upto (input_nfa : finite_automata) (dfa_st : dfa_state) (m : Nat) :
    List dfa_state :=
  (List.range m).foldl (fun transition_to input_state =>
    if !dfa_state_contains_nfa_state dfa_st input_state then transition_to
    else add_transition_targets transition_to
      (input_nfa.states.getD input_state zero_state).first_transition)
    (fresh_transition_to input_nfa)

/-! ## Sets denoted by state sets, and the discovery -/

/-- The set of NFA states a bitset denotes. -/
def members (S : dfa_state) : Set Nat :=
  {q | dfa_state_contains_nfa_state S q = true}

/-- The move set move(X, c): the targets of the transitions labelled `c` that
leave a state of `X`. -/
def move (nfa : finite_automata) (X : Set Nat) (c : Nat) : Set Nat :=
  {q | ∃ p ∈ X, ∃ t ∈ transitions_of nfa p, t.symbol = c ∧ t.to_state = q}

/-- The states reached from `X` along the symbols of `w`. -/
def move_word (nfa : finite_automata) (X : Set Nat) (w : List Nat) : Set Nat :=
  w.foldl (move nfa) X

/-- The bitset the code computes for the symbol of index `i` from `S`:
element `i` of the array `transition_to`. -/
def move_set (nfa : finite_automata) (S : dfa_state) (i : Nat) : dfa_state :=
  (fill_transition_to nfa S).getD i zero_dfa_state

/-- The bitset of the initial state, line 266-267. -/
def initial_set (nfa : finite_automata) : dfa_state :=
  add_nfa_state_to_dfa_state (create_dfa_state nfa.state_number) nfa.initial_state

/-- The registry holds pairwise different, non-empty, well-formed sets. -/
def registry_sets_ok (n : Nat) (r : dfa_state_registry) : Prop :=
  registry_ok r ∧ registry_distinct r ∧
    (∀ i, i < r.size → state_set_wf n (get_dfa_state_from_registry_by_id r i)) ∧
    ∀ i, i < r.size → is_dfa_state_empty (get_dfa_state_from_registry_by_id r i) = false

/-- Lines 293-302 run for the symbols of index below `m` only. -/
def add_new_states_upto (transition_to : List dfa_state) (registry : dfa_state_registry)
    (m : Nat) : dfa_state_registry :=
  (List.range m).foldl (fun registry i =>
    if is_dfa_state_empty (transition_to.getD i zero_dfa_state)
        || is_dfa_state_in_registry registry (transition_to.getD i zero_dfa_state) then registry
    else (add_dfa_state_to_registry registry (transition_to.getD i zero_dfa_state)).1)
    registry

/-- A string over the alphabet of the automaton: character codes from `'a'`
up to `'a' + alphabet_size - 1`. -/
def word_ok (fa : finite_automata) (w : List Nat) : Prop :=
  ∀ c ∈ w, CHAR_a ≤ c ∧ c < CHAR_a + fa.alphabet_size

instance (fa : finite_automata) (w : List Nat) : Decidable (word_ok fa w) := by
  unfold word_ok; infer_instance

/-- Every set `S` among the first `m` of the registry is closed under the
moves: a non-empty move set of `S` is in the registry. -/
def closed_upto (nfa : finite_automata) (r : dfa_state_registry) (m : Nat) : Prop :=
  ∀ j, j < m → ∀ i, i < nfa.alphabet_size →
    is_dfa_state_empty (move_set nfa (get_dfa_state_from_registry_by_id r j) i) = false →
    ∃ j2, j2 < r.size ∧ get_dfa_state_from_registry_by_id r j2
      = move_set nfa (get_dfa_state_from_registry_by_id r j) i

/-- Invariant of the discovery loop when it is about to test
`output_state_id < size` for `output_state_id = m`. -/
def discovery_inv (nfa : finite_automata) (m : Nat) (r : dfa_state_registry) : Prop :=
  registry_sets_ok nfa.state_number r ∧ 0 < r.size ∧
    get_dfa_state_from_registry_by_id r 0 = initial_set nfa ∧
    (∀ j, j < r.size → ∃ w, word_ok nfa w ∧
      members (get_dfa_state_from_registry_by_id r j) = move_word nfa {nfa.initial_state} w) ∧
    closed_upto nfa r m

/-- The membership function of a state set on the states below `n`. -/
def membership (n : Nat) (s : dfa_state) : Fin n → Bool :=
  fun q => dfa_state_contains_nfa_state s q.1

/-- What holds of the registry at the end of the discovery. -/
def discovered (nfa : finite_automata) (r : dfa_state_registry) : Prop :=
  discovery_inv nfa r.size r

/-! ## The output automaton -/

/-- The state whose id the second loop looks up for `output_state_id` and the
symbol of index `i`: the move set, or a copy of the own set when the move set
is empty. -/
def target_set (nfa : finite_automata) (r : dfa_state_registry) (id i : Nat) : dfa_state :=
  if is_dfa_state_empty (move_set nfa (get_dfa_state_from_registry_by_id r id) i) then
    copy_dfa_state (get_dfa_state_from_registry_by_id r id)
  else move_set nfa (get_dfa_state_from_registry_by_id r id) i

/-- Target of the transition added for `output_state_id = id` and the symbol of
index `i`. -/
def target (nfa : finite_automata) (r : dfa_state_registry) (id i : Nat) : Nat :=
  get_state_id_from_registry r (target_set nfa r id i)

/-- Whether one of the first `m` NFA states is a final member of `S`. -/
def has_final_upto (nfa : finite_automata) (S : dfa_state) (m : Nat) : Bool :=
  (List.range m).any (fun q =>
    dfa_state_contains_nfa_state S q && (nfa.states.getD q zero_state).is_final)

/-- The transitions of an output state after the symbols below `m`: the last
one added is the head. -/
def output_transitions (nfa : finite_automata) (r : dfa_state_registry) (id m : Nat) :
    List finite_automata_transition :=
  ((List.range m).map (fun i => (⟨CHAR_a + i, target nfa r id i⟩ : finite_automata_transition))).reverse

/-- The state the second loop builds for `output_state_id = id`. -/
def output_state (nfa : finite_automata) (r : dfa_state_registry) (id : Nat) :
    finite_automata_state :=
  { is_final := has_final_upto nfa (get_dfa_state_from_registry_by_id r id) nfa.state_number
    first_transition := output_transitions nfa r id nfa.alphabet_size }

/-- Replace state `id` of `fa` by `s`. -/
def with_state (fa : finite_automata) (id : Nat) (s : finite_automata_state) : finite_automata :=
  { fa with states := fa.states.set id s }

/-! ## Runs and acceptance -/

/-- Whether some run of `fa` from state `q` over the string `w` ends in a state
satisfying `P`: a run follows, for each symbol, one transition with that
label. -/
def exists_run (fa : finite_automata) (P : Nat → Bool) : Nat → List Nat → Bool
  | q, [] => P q
  | q, c :: w => (transitions_of fa q).any (fun t => t.symbol == c && exists_run fa P t.to_state w)

/-- The final flag of state `q`. -/
def is_final_state (fa : finite_automata) (q : Nat) : Bool :=
  (fa.states.getD q zero_state).is_final

/-- Acceptance by a nondeterministic automaton: some run from the initial state
ends in a final state. -/
def nfa_accepts (fa : finite_automata) (w : List Nat) : Bool :=
  exists_run fa (is_final_state fa) fa.initial_state w

/-- Whether the automaton has a run from the initial state over all of `w`. -/
def nfa_has_run (fa : finite_automata) (w : List Nat) : Bool :=
  exists_run fa (fun _ => true) fa.initial_state w

/-- The transition function of a deterministic automaton: the target of the
transition of `q` labelled `c`. -/
def dfa_step (fa : finite_automata) (q c : Nat) : Option Nat :=
  ((transitions_of fa q).find? (fun t => t.symbol == c)).map (fun t => t.to_state)

/-- The run of a deterministic automaton from `q` over `w`: the state it ends
in, `none` when a transition is missing. -/
def dfa_run (fa : finite_automata) : Nat → List Nat → Option Nat
  | q, [] => some q
  | q, c :: w =>
    match dfa_step fa q c with
    | some q2 => dfa_run fa q2 w
    | none => none

/-- Acceptance by a deterministic automaton: the run from the initial state
ends in a final state. -/
def dfa_accepts (fa : finite_automata) (w : List Nat) : Bool :=
  match dfa_run fa fa.initial_state w with
  | some q => is_final_state fa q
  | none => false

/-! ## Example automata -/

/-- One final state and no transition, over the alphabet `a`. -/
def nfa_final_only : finite_automata :=
  { alphabet_size := 1, state_number := 1, initial_state := 0, states := [⟨true, []⟩] }

/-- The automaton the conversion produces for `nfa_final_only`. -/
def dfa_final_only : finite_automata :=
  { alphabet_size := 1, state_number := 1, initial_state := 0, states := [⟨true, [⟨97, 0⟩]⟩] }

/-- The automaton of the scenario: `0 -a-> 0`, `0 -a-> 1`, state 1 final.  The
transition added last is the head of the list. -/
def nfa_scenario : finite_automata :=
  add_finite_automata_transition
    (add_finite_automata_transition
      (set_finite_automata_final_state
        (init_finite_automata_states
          { alphabet_size := 1, state_number := 2, initial_state := 0, states := [] }) 1)
      0 97 0)
    0 97 1

/-- The automaton expected for the scenario: `0 -a-> 1`, `1 -a-> 1`, state 1
final. -/
def dfa_scenario : finite_automata :=
  { alphabet_size := 1, state_number := 2, initial_state := 0,
    states := [⟨false, [⟨97, 1⟩]⟩, ⟨true, [⟨97, 1⟩]⟩] }

/-- The registry at the end of the discovery for `nfa_scenario`: the sets
`{0}` and `{0, 1}`. -/
def registry_scenario : dfa_state_registry :=
  { size := 2, capacity := 2, data := [⟨2, [1]⟩, ⟨2, [3]⟩] }

/-- The registry at the end of the discovery for `nfa_final_only`: the set
`{0}`. -/
def registry_final_only : dfa_state_registry :=
  { size := 1, capacity := 1, data := [⟨1, [1]⟩] }

/-- The registry after `add_dfa_state_to_registry` was called for each set of
`sets` in turn, starting from `init_dfa_state_registry`. -/
def registry_after (sets : List dfa_state) : dfa_state_registry :=
  sets.foldl (fun r s => (add_dfa_state_to_registry r s).1) init_dfa_state_registry

/-- Three sets offered to the registry, the third one a repetition of the
first. -/
def sets_with_repetition : List dfa_state :=
  [create_dfa_state 2, add_nfa_state_to_dfa_state (create_dfa_state 2) 1, create_dfa_state 2]

/-- The automaton of the scenario with its two transitions added in the other
order. -/
def nfa_scenario_swapped : finite_automata :=
  add_finite_automata_transition
    (add_finite_automata_transition
      (set_finite_automata_final_state
        (init_finite_automata_states
          { alphabet_size := 1, state_number := 2, initial_state := 0, states := [] }) 1)
      0 97 1)
    0 97 0

/-- Two automata that differ at most in the order of the transition lists of
their states. -/
def same_up_to_order (a b : finite_automata) : Prop :=
  a.alphabet_size = b.alphabet_size ∧ a.state_number = b.state_number ∧
    a.initial_state = b.initial_state ∧
    ∀ p, p < a.state_number →
      is_final_state a p = is_final_state b p ∧ (transitions_of a p).Perm (transitions_of b p)

instance (a b : finite_automata) : Decidable (same_up_to_order a b) := by
  unfold same_up_to_order; infer_instance

/-! ## Conversion of a deterministic automaton -/

/-- Already deterministic and total: every state has exactly one transition for
each symbol of the alphabet. -/
def deterministic_total (fa : finite_automata) : Prop :=
  ∀ p, p < fa.state_number → ∀ i, i < fa.alphabet_size →
    (transitions_of fa p).countP (fun t => t.symbol == CHAR_a + i) = 1

instance (fa : finite_automata) : Decidable (deterministic_total fa) := by
  unfold deterministic_total; infer_instance

/-- State `q` is reached from the initial state by the run over some string of
the alphabet. -/
def reachable (fa : finite_automata) (q : Nat) : Prop :=
  ∃ w, word_ok fa w ∧ dfa_run fa fa.initial_state w = some q

/-- Automaton `b` is a renumbering of the states of `a` that satisfy `dom`: `g`
maps the state ids of `b` one-to-one onto those states, initial state to
initial state, and preserves the final flags and the transition function. -/
def fa_isomorphic_on (a : finite_automata) (dom : Nat → Prop) (b : finite_automata) : Prop :=
  a.alphabet_size = b.alphabet_size ∧
  ∃ g : Nat → Nat,
    (∀ id, id < b.state_number → g id < a.state_number ∧ dom (g id)) ∧
    (∀ id id2, id < b.state_number → id2 < b.state_number → g id = g id2 → id = id2) ∧
    (∀ q, q < a.state_number → dom q → ∃ id, id < b.state_number ∧ g id = q) ∧
    g b.initial_state = a.initial_state ∧
    (∀ id, id < b.state_number → is_final_state b id = is_final_state a (g id)) ∧
    ∀ id i, id < b.state_number → i < b.alphabet_size →
      ∃ id2, id2 < b.state_number ∧ dfa_step b id (CHAR_a + i) = some id2 ∧
        dfa_step a (g id) (CHAR_a + i) = some (g id2)

/-- Isomorphic automata: a renumbering of all the states. -/
def fa_isomorphic (a b : finite_automata) : Prop :=
  fa_isomorphic_on a (fun _ => True) b

/-- A deterministic, total automaton whose state 1 is not reachable:
`0 -a-> 0`, `1 -a-> 1`, initial state 0. -/
def dfa_with_unreachable : finite_automata :=
  { alphabet_size := 1, state_number := 2, initial_state := 0,
    states := [⟨false, [⟨97, 0⟩]⟩, ⟨true, [⟨97, 1⟩]⟩] }

/-- The automaton the conversion produces for `dfa_with_unreachable`. -/
def dfa_without_unreachable : finite_automata :=
  { alphabet_size := 1, state_number := 1, initial_state := 0, states := [⟨false, [⟨97, 0⟩]⟩] }

/-! ## Further examples and notions for the registry and the state sets -/

instance (r : dfa_state_registry) : Decidable (registry_ok r) := by
  unfold registry_ok; infer_instance

/-- A full registry: one set stored, capacity 1. -/
def registry_full : dfa_state_registry :=
  (add_dfa_state_to_registry init_dfa_state_registry (create_dfa_state 2)).1

/-- The set `{1}` over two NFA states. -/
def set_one_of_two : dfa_state :=
  add_nfa_state_to_dfa_state (create_dfa_state 2) 1

/-- The state set built by `create_dfa_state n` followed by one
`add_nfa_state_to_dfa_state` call for each state of `l`, in order. -/
def build_dfa_state (n : Nat) (l : List Nat) : dfa_state :=
  l.foldl add_nfa_state_to_dfa_state (create_dfa_state n)

/-- A state set whose bitset has the `nfa_state_number / 64 + 1` words that
`create_dfa_state` allocates. -/
def bitset_allocated (s : dfa_state) : Prop :=
  s.bitset.length = s.nfa_state_number / BITSET_ELEMENT_SIZE + 1

instance (s : dfa_state) : Decidable (bitset_allocated s) := by
  unfold bitset_allocated; infer_instance

/-- Every state has at least one outgoing transition for every symbol of the
alphabet. -/
def nfa_total (nfa : finite_automata) : Prop :=
  ∀ p, p < nfa.state_number → ∀ i, i < nfa.alphabet_size →
    ∃ t ∈ transitions_of nfa p, t.symbol = CHAR_a + i

instance (nfa : finite_automata) : Decidable (nfa_total nfa) := by
  unfold nfa_total; infer_instance

/-- A total automaton that is not deterministic: `0 -a-> 0`, `0 -a-> 1`,
`1 -a-> 1`, state 1 final. -/
def nfa_total_example : finite_automata :=
  { alphabet_size := 1, state_number := 2, initial_state := 0,
    states := [⟨false, [⟨97, 1⟩, ⟨97, 0⟩]⟩, ⟨true, [⟨97, 1⟩]⟩] }

/-! ## Reading a file (`process_file`, `main.c`) -/

/-- Value of the constant `FAILED_TO_PROCESS_FILE`. -/
def FAILED_TO_PROCESS_FILE : Int := -1

/-- Value of the constant `SUCCESSFUL_FILE_PROCESSING`. -/
def SUCCESSFUL_FILE_PROCESSING : Int := 0

/-- The four values the first `fscanf` call (line 15) stores: an `int` and three
`size_t`. -/
structure file_header where
  alphabet_size : Int
  state_number : Nat
  initial_state : Nat
  final_state_number : Nat
deriving DecidableEq

/-- One line `from_state symbol to_state` for which the `fscanf` of lines 43 and
46 returns 3. -/
structure transition_line where
  from_state : Nat
  symbol : Nat
  to_state : Nat
deriving DecidableEq

/-- A file as `process_file` scans it: the header (`none` when the first
`fscanf` returns `EOF`), the numbers the `fscanf` of line 33 delivers before the
end of the file, and the transition lines read until an `fscanf` of lines 43 and
46 does not return 3. -/
structure scanned_file where
  header : Option file_header
  final_states : List Nat
  transitions : List transition_line
deriving DecidableEq

/-- The loop of lines 31-38: `final_state_number` states are read and marked
final; `none` when the file ends before that (`FAILED_TO_PROCESS_FILE`). -/
def read_final_states (fa : finite_automata) : Nat → List Nat → Option finite_automata
  | 0, _ => some fa
  | _ + 1, [] => none
  | k + 1, state :: rest => read_final_states (set_finite_automata_final_state fa state) k rest

/-- Lines 10-47 of `process_file`: the automaton built from the file, `none`
where `process_file` returns `FAILED_TO_PROCESS_FILE`.  The test
`fa.initial_state < 0` of line 21 is on a `size_t` and never holds. -/
def read_automaton (file : scanned_file) : Option finite_automata :=
  match file.header with
  | none => none
  | some header =>
    if header.alphabet_size < 1 ∨ header.alphabet_size > MAX_ALPHABET_SIZE
        ∨ header.initial_state ≥ header.state_number then none
    else
      let fa : finite_automata :=
        init_finite_automata_states
          { alphabet_size := header.alphabet_size.toNat
            state_number := header.state_number
            initial_state := header.initial_state
            states := [] }
      match read_final_states fa header.final_state_number file.final_states with
      | none => none
      | some fa =>
        some (file.transitions.foldl (fun fa line =>
          add_finite_automata_transition fa line.from_state line.symbol line.to_state) fa)

/-- What a call of `process_file` does: the value it returns and, when the
conversion was run, the automaton it was run on and its output, which are the
two automata printed. -/
structure process_result where
  returned : Int
  converted : Option (finite_automata × finite_automata)
deriving DecidableEq

/-- Function `process_file`; `none` when the conversion does not end within
`fuel` iterations of its discovery loop. -/
def process_file (fuel : Nat) (file : scanned_file) : Option process_result :=
  match read_automaton file with
  | none => some { returned := FAILED_TO_PROCESS_FILE, converted := none }
  | some fa =>
    match convert_nfa_to_dfa fuel fa with
    | none => none
    | some dfa => some { returned := SUCCESSFUL_FILE_PROCESSING, converted := some (fa, dfa) }

/-- The file `1 1 0 0` followed by the line `0 b 0`: alphabet `a`, one state,
and a transition labelled `b`. -/
def file_symbol_out_of_range : scanned_file :=
  { header := some { alphabet_size := 1, state_number := 1, initial_state := 0,
                     final_state_number := 0 }
    final_states := []
    transitions := [{ from_state := 0, symbol := 98, to_state := 0 }] }

/-- The automaton `process_file` builds from `file_symbol_out_of_range`. -/
def nfa_symbol_out_of_range : finite_automata :=
  { alphabet_size := 1, state_number := 1, initial_state := 0, states := [⟨false, [⟨98, 0⟩]⟩] }

/-- The automaton the model of the conversion returns for
`nfa_symbol_out_of_range`, the store outside `transition_to` left out. -/
def dfa_symbol_out_of_range : finite_automata :=
  { alphabet_size := 1, state_number := 1, initial_state := 0, states := [⟨false, [⟨97, 0⟩]⟩] }

/-! ## Lemmas: bitsets

Membership is a bit test; `create` is empty, `add` inserts one state, and two
well-formed sets are equal exactly when `compare_dfa_states` says so, which is
when they have the same members. -/

theorem and_one_shiftLeft_ne_zero (w b : Nat) :
    (w &&& (1 <<< b) != 0) = w.testBit b := by
  rw [Nat.one_shiftLeft]
  cases h : w.testBit b
  · have : w &&& 2 ^ b = 0 := by
      apply Nat.eq_of_testBit_eq
      intro i
      rw [Nat.testBit_and, Nat.zero_testBit, Nat.testBit_two_pow]
      by_cases hi : b = i
      · subst hi; simp [h]
      · simp [hi]
    simp [this]
  · have h2 : (w &&& 2 ^ b).testBit b = true := by
      rw [Nat.testBit_and, h, Nat.testBit_two_pow_self]; rfl
    have : w &&& 2 ^ b ≠ 0 := by
      intro h0
      rw [h0, Nat.zero_testBit] at h2
      exact Bool.noConfusion h2
    simp [this]

theorem contains_eq_testBit (s : dfa_state) (q : Nat) :
    dfa_state_contains_nfa_state s q = (s.bitset.getD (q / 64) 0).testBit (q % 64) := by
  unfold dfa_state_contains_nfa_state
  exact and_one_shiftLeft_ne_zero _ _

theorem contains_create (n q : Nat) :
    dfa_state_contains_nfa_state (create_dfa_state n) q = false := by
  rw [contains_eq_testBit]
  have : (create_dfa_state n).bitset.getD (q / 64) 0 = 0 := by
    unfold create_dfa_state
    simp only [List.getD_eq_getElem?_getD, List.getElem?_replicate]
    split <;> rfl
  rw [this, Nat.zero_testBit]

theorem getD_set_eq_ite {α : Type} (l : List α) (i j : Nat) (v d : α) (hi : i < l.length) :
    (l.set i v).getD j d = if j = i then v else l.getD j d := by
  simp only [List.getD_eq_getElem?_getD, List.getElem?_set]
  by_cases h : i = j
  · subst h; simp [hi]
  · have h2 : ¬ j = i := fun e => h e.symm
    simp [h, h2]

theorem contains_add (s : dfa_state) (i q : Nat) (hi : i / 64 < s.bitset.length) :
    dfa_state_contains_nfa_state (add_nfa_state_to_dfa_state s i) q =
      (dfa_state_contains_nfa_state s q || decide (q = i)) := by
  rw [contains_eq_testBit, contains_eq_testBit]
  unfold add_nfa_state_to_dfa_state
  simp only [BITSET_ELEMENT_SIZE]
  rw [getD_set_eq_ite _ _ _ _ _ hi]
  by_cases h : q / 64 = i / 64
  · rw [if_pos h, Nat.testBit_or, Nat.one_shiftLeft, Nat.testBit_two_pow, h]
    congr 1
    by_cases h2 : q = i
    · subst h2; simp
    · have : ¬ i % 64 = q % 64 := by omega
      simp [h2, this]
  · rw [if_neg h]
    have : ¬ q = i := fun e => h (by rw [e])
    simp [this]

theorem state_set_wf_create (n : Nat) : state_set_wf n (create_dfa_state n) := by
  refine ⟨rfl, ?_, ?_, fun q _ => contains_create n q⟩
  · simp [create_dfa_state, BITSET_ELEMENT_SIZE]
  · intro w hw
    simp only [create_dfa_state, List.mem_replicate] at hw
    rw [hw.2]; exact Nat.two_pow_pos 64

theorem state_set_wf_add (n : Nat) (s : dfa_state) (i : Nat) (hs : state_set_wf n s)
    (hi : i < n) : state_set_wf n (add_nfa_state_to_dfa_state s i) := by
  obtain ⟨h1, h2, h3, h4⟩ := hs
  have hlen : i / 64 < s.bitset.length := by rw [h2]; omega
  refine ⟨h1, ?_, ?_, ?_⟩
  · simp [add_nfa_state_to_dfa_state, h2]
  · intro w hw
    simp only [add_nfa_state_to_dfa_state] at hw
    rcases List.mem_or_eq_of_mem_set hw with h | h
    · exact h3 w h
    · rw [h]
      apply Nat.or_lt_two_pow
      · rw [List.getD_eq_getElem?_getD]
        cases hg : s.bitset[i / BITSET_ELEMENT_SIZE]? with
        | none => simp
        | some v => simpa using h3 v (List.getElem?_mem hg)
      · rw [Nat.one_shiftLeft]
        apply Nat.pow_lt_pow_right (by decide)
        simp only [BITSET_ELEMENT_SIZE]; omega
  · intro q hq
    rw [contains_add s i q hlen, h4 q hq]
    have : ¬ q = i := by omega
    simp [this]

theorem word_eq_zero_iff (w : Nat) : w = 0 ↔ ∀ b, w.testBit b = false := by
  constructor
  · intro h b; rw [h, Nat.zero_testBit]
  · intro h
    apply Nat.eq_of_testBit_eq
    intro i; rw [h i, Nat.zero_testBit]

theorem is_empty_iff (n : Nat) (s : dfa_state) (hs : state_set_wf n s) :
    is_dfa_state_empty s = true ↔ ∀ q, q < n → dfa_state_contains_nfa_state s q = false := by
  obtain ⟨h1, h2, h3, h4⟩ := hs
  unfold is_dfa_state_empty
  rw [List.all_eq_true]
  simp only [BITSET_ELEMENT_SIZE, h1, List.mem_range, beq_iff_eq]
  constructor
  · intro h q hq
    rw [contains_eq_testBit, h (q / 64) (by omega), Nat.zero_testBit]
  · intro h i hi
    rw [word_eq_zero_iff]
    intro b
    by_cases hb : b < 64
    · have e1 : (64 * i + b) / 64 = i := by omega
      have e2 : (64 * i + b) % 64 = b := by omega
      by_cases hq : 64 * i + b < n
      · have := h _ hq
        rwa [contains_eq_testBit, e1, e2] at this
      · have := h4 (64 * i + b) (by omega)
        rwa [contains_eq_testBit, e1, e2] at this
    · have hw : s.bitset.getD i 0 < 2 ^ 64 := by
        rw [List.getD_eq_getElem?_getD]
        cases hg : s.bitset[i]? with
        | none => simp
        | some v => simpa using h3 v (List.getElem?_mem hg)
      apply Nat.testBit_lt_two_pow
      exact Nat.lt_of_lt_of_le hw (Nat.pow_le_pow_right (by decide) (by omega))

theorem is_empty_iff_all (n : Nat) (s : dfa_state) (hs : state_set_wf n s) :
    is_dfa_state_empty s = true ↔ ∀ q, dfa_state_contains_nfa_state s q = false := by
  rw [is_empty_iff n s hs]
  constructor
  · intro h q
    by_cases hq : q < n
    · exact h q hq
    · exact hs.2.2.2 q (by omega)
  · intro h q _; exact h q

theorem compare_iff (a b : dfa_state) :
    compare_dfa_states a b = true ↔ a.nfa_state_number = b.nfa_state_number ∧
      ∀ i, i < a.nfa_state_number / 64 + 1 → a.bitset.getD i 0 = b.bitset.getD i 0 := by
  unfold compare_dfa_states
  by_cases h : a.nfa_state_number = b.nfa_state_number
  · simp [h, BITSET_ELEMENT_SIZE]
  · simp [h]

theorem list_eq_of_getD (l1 l2 : List Nat) (k : Nat) (h1 : l1.length = k) (h2 : l2.length = k)
    (h : ∀ i, i < k → l1.getD i 0 = l2.getD i 0) : l1 = l2 := by
  apply List.ext_getElem (by rw [h1, h2])
  intro i hi1 hi2
  have := h i (by omega)
  simpa [List.getD_eq_getElem?_getD, List.getElem?_eq_getElem hi1,
    List.getElem?_eq_getElem hi2] using this

theorem compare_iff_eq (n : Nat) (a b : dfa_state) (ha : state_set_wf n a)
    (hb : state_set_wf n b) : compare_dfa_states a b = true ↔ a = b := by
  rw [compare_iff]
  constructor
  · rintro ⟨h1, h2⟩
    have hl := list_eq_of_getD a.bitset b.bitset (n / 64 + 1) ha.2.1 hb.2.1
      (by intro i hi; exact h2 i (by rw [ha.1]; exact hi))
    cases a; cases b; simp_all
  · intro h; subst h; exact ⟨rfl, fun _ _ => rfl⟩

theorem compare_copy_right (s d : dfa_state) :
    compare_dfa_states s (copy_dfa_state d) = compare_dfa_states s d := by
  have key : ∀ i, i < d.nfa_state_number / 64 + 1 →
      (copy_dfa_state d).bitset.getD i 0 = d.bitset.getD i 0 := by
    intro i hi
    simp only [copy_dfa_state, BITSET_ELEMENT_SIZE, List.getD_eq_getElem?_getD, List.getElem?_map,
      List.getElem?_range hi, Option.map_some', Option.getD_some]
  rw [Bool.eq_iff_iff, compare_iff, compare_iff]
  constructor
  · rintro ⟨h1, h2⟩
    refine ⟨h1, fun i hi => ?_⟩
    rw [h2 i hi]; exact key i (by rw [← show s.nfa_state_number = d.nfa_state_number from h1]; exact hi)
  · rintro ⟨h1, h2⟩
    refine ⟨h1, fun i hi => ?_⟩
    rw [h2 i hi]; exact (key i (by rw [← h1]; exact hi)).symm

theorem copy_eq_self (n : Nat) (s : dfa_state) (hs : state_set_wf n s) : copy_dfa_state s = s := by
  have hl : (copy_dfa_state s).bitset = s.bitset := by
    apply list_eq_of_getD _ _ (n / 64 + 1) _ hs.2.1
    · intro i hi
      simp only [copy_dfa_state, BITSET_ELEMENT_SIZE, hs.1, List.getD_eq_getElem?_getD,
        List.getElem?_map, List.getElem?_range hi, Option.map_some', Option.getD_some]
    · simp [copy_dfa_state, BITSET_ELEMENT_SIZE, hs.1]
  cases s
  simp only [copy_dfa_state] at hl ⊢
  rw [hl]

theorem state_set_ext (n : Nat) (a b : dfa_state) (ha : state_set_wf n a)
    (hb : state_set_wf n b)
    (h : ∀ q, q < n → dfa_state_contains_nfa_state a q = dfa_state_contains_nfa_state b q) :
    a = b := by
  have hall : ∀ q, dfa_state_contains_nfa_state a q = dfa_state_contains_nfa_state b q := by
    intro q
    by_cases hq : q < n
    · exact h q hq
    · rw [ha.2.2.2 q (by omega), hb.2.2.2 q (by omega)]
  have hword : ∀ (s : dfa_state), state_set_wf n s → ∀ i, s.bitset.getD i 0 < 2 ^ 64 := by
    intro s hs i
    rw [List.getD_eq_getElem?_getD]
    cases hg : s.bitset[i]? with
    | none => simp
    | some v => simpa using hs.2.2.1 v (List.getElem?_mem hg)
  have hl := list_eq_of_getD a.bitset b.bitset (n / 64 + 1) ha.2.1 hb.2.1 (by
    intro i _
    apply Nat.eq_of_testBit_eq
    intro bit
    by_cases hb64 : bit < 64
    · have e1 : (64 * i + bit) / 64 = i := by omega
      have e2 : (64 * i + bit) % 64 = bit := by omega
      have := hall (64 * i + bit)
      rwa [contains_eq_testBit, contains_eq_testBit, e1, e2] at this
    · rw [Nat.testBit_lt_two_pow, Nat.testBit_lt_two_pow]
      · exact Nat.lt_of_lt_of_le (hword b hb i) (Nat.pow_le_pow_right (by decide) (by omega))
      · exact Nat.lt_of_lt_of_le (hword a ha i) (Nat.pow_le_pow_right (by decide) (by omega)))
  have hn : a.nfa_state_number = b.nfa_state_number := by rw [ha.1, hb.1]
  cases a; cases b; simp_all

/-! ## Lemmas: registry

The scan returns the first index that compares equal; a call that appends
keeps the old slots, also when the array is grown. -/

theorem registry_ok_init : registry_ok init_dfa_state_registry := by
  simp [registry_ok, init_dfa_state_registry]

theorem registry_scan_some (r : dfa_state_registry) (s : dfa_state) (i : Nat) :
    registry_scan r s = some i ↔
      compare_dfa_states s (get_dfa_state_from_registry_by_id r i) = true ∧ i < r.size ∧
        ∀ j, j < i → compare_dfa_states s (get_dfa_state_from_registry_by_id r j) = false := by
  unfold registry_scan get_dfa_state_from_registry_by_id
  rw [List.find?_range_eq_some]
  simp [List.mem_range]

theorem registry_scan_none (r : dfa_state_registry) (s : dfa_state) :
    registry_scan r s = none ↔
      ∀ j, j < r.size → compare_dfa_states s (get_dfa_state_from_registry_by_id r j) = false := by
  unfold registry_scan get_dfa_state_from_registry_by_id
  rw [List.find?_range_eq_none]
  simp

theorem compare_symm (a b : dfa_state) : compare_dfa_states a b = compare_dfa_states b a := by
  rw [Bool.eq_iff_iff, compare_iff, compare_iff]
  constructor
  · rintro ⟨h1, h2⟩
    exact ⟨h1.symm, fun i hi => (h2 i (by rw [h1]; exact hi)).symm⟩
  · rintro ⟨h1, h2⟩
    exact ⟨h1.symm, fun i hi => (h2 i (by rw [h1]; exact hi)).symm⟩

theorem getD_grow (r : dfa_state_registry) (i : Nat) (hi : i < r.capacity) :
    (grow_registry r).data.getD i zero_dfa_state = r.data.getD i zero_dfa_state := by
  have h2 : i < r.capacity * 2 := by omega
  simp only [grow_registry, List.getD_eq_getElem?_getD, List.getElem?_map,
    List.getElem?_range h2, Option.map_some', Option.getD_some, if_pos hi]

theorem registry_ok_grow (r : dfa_state_registry) (hr : registry_ok r) :
    registry_ok (grow_registry r) ∧ (grow_registry r).size = r.size ∧
      r.size < (grow_registry r).capacity := by
  obtain ⟨h1, h2, h3⟩ := hr
  refine ⟨⟨?_, ?_, ?_⟩, rfl, ?_⟩ <;> simp [grow_registry] <;> omega

theorem room_registry_spec (r : dfa_state_registry) (hr : registry_ok r) :
    registry_ok (room_registry r) ∧ (room_registry r).size = r.size ∧
      r.size < (room_registry r).capacity ∧
      ∀ i, i < r.size → (room_registry r).data.getD i zero_dfa_state
        = r.data.getD i zero_dfa_state := by
  unfold room_registry
  by_cases h : r.size ≥ r.capacity
  · rw [if_pos h]
    obtain ⟨g1, g2, g3⟩ := registry_ok_grow r hr
    exact ⟨g1, g2, g3, fun i hi => getD_grow r i (by have := hr.1; omega)⟩
  · rw [if_neg h]
    exact ⟨hr, rfl, by omega, fun _ _ => rfl⟩

theorem add_found (r : dfa_state_registry) (s : dfa_state) (i : Nat)
    (h : registry_scan r s = some i) : add_dfa_state_to_registry r s = (r, i) := by
  unfold add_dfa_state_to_registry; rw [h]

theorem add_fresh (r : dfa_state_registry) (s : dfa_state) (hr : registry_ok r)
    (h : registry_scan r s = none) :
    registry_ok (add_dfa_state_to_registry r s).1 ∧
      (add_dfa_state_to_registry r s).1.size = r.size + 1 ∧
      (add_dfa_state_to_registry r s).2 = r.size ∧
      get_dfa_state_from_registry_by_id (add_dfa_state_to_registry r s).1 r.size
        = copy_dfa_state s ∧
      ∀ i, i < r.size → get_dfa_state_from_registry_by_id (add_dfa_state_to_registry r s).1 i
        = get_dfa_state_from_registry_by_id r i := by
  obtain ⟨g1, g2, g3, g4⟩ := room_registry_spec r hr
  have e : add_dfa_state_to_registry r s =
      ({ room_registry r with
          data := (room_registry r).data.set (room_registry r).size (copy_dfa_state s)
          size := (room_registry r).size + 1 }, (room_registry r).size) := by
    unfold add_dfa_state_to_registry; rw [h]; rfl
  rw [e]
  obtain ⟨k1, k2, k3⟩ := g1
  refine ⟨⟨?_, ?_, ?_⟩, ?_, ?_, ?_, ?_⟩
  · simp only; omega
  · simp only [List.length_set]; exact k2
  · exact k3
  · simp only; omega
  · simp only; exact g2
  · simp only [get_dfa_state_from_registry_by_id, g2, List.getD_eq_getElem?_getD]
    rw [List.getElem?_set_self (by omega)]; rfl
  · intro i hi
    simp only [get_dfa_state_from_registry_by_id, g2]
    rw [← g4 i hi]
    simp only [List.getD_eq_getElem?_getD]
    rw [List.getElem?_set_ne (by omega)]

theorem add_size_mono (r : dfa_state_registry) (s : dfa_state) (hr : registry_ok r) :
    r.size ≤ (add_dfa_state_to_registry r s).1.size := by
  cases h : registry_scan r s with
  | some i => rw [add_found r s i h]
  | none => rw [(add_fresh r s hr h).2.1]; omega

theorem add_preserves (r : dfa_state_registry) (s : dfa_state) (hr : registry_ok r)
    (hd : registry_distinct r) :
    registry_ok (add_dfa_state_to_registry r s).1 ∧
      registry_distinct (add_dfa_state_to_registry r s).1 := by
  cases h : registry_scan r s with
  | some i => rw [add_found r s i h]; exact ⟨hr, hd⟩
  | none =>
    obtain ⟨a1, a2, _, a4, a5⟩ := add_fresh r s hr h
    refine ⟨a1, ?_⟩
    rw [registry_scan_none] at h
    have hnew : ∀ i, i < r.size → compare_dfa_states (copy_dfa_state s)
        (get_dfa_state_from_registry_by_id r i) = false := by
      intro i hi
      rw [compare_symm, compare_copy_right, compare_symm]; exact h i hi
    intro i j hi hj hij
    rw [a2] at hi hj
    by_cases hi2 : i < r.size
    · by_cases hj2 : j < r.size
      · rw [a5 i hi2, a5 j hj2]; exact hd i j hi2 hj2 hij
      · have : j = r.size := by omega
        subst this
        rw [a5 i hi2, a4, compare_symm]; exact hnew i hi2
    · have : i = r.size := by omega
      subst this
      have hj2 : j < r.size := by omega
      rw [a5 j hj2, a4]; exact hnew j hj2

/-! ## Lemmas: the array `transition_to`

After the first loop of the body, element `i` holds exactly the targets of the
transitions labelled `'a' + i` that leave a member of the set. -/

theorem nfa_wf_transition (nfa : finite_automata) (h : nfa_wf nfa) (p : Nat)
    (t : finite_automata_transition) (ht : t ∈ transitions_of nfa p) :
    CHAR_a ≤ t.symbol ∧ t.symbol < CHAR_a + nfa.alphabet_size ∧ t.to_state < nfa.state_number := by
  unfold transitions_of at ht
  rw [List.getD_eq_getElem?_getD] at ht
  cases hg : nfa.states[p]? with
  | none => rw [hg] at ht; simp [zero_state] at ht
  | some s =>
    rw [hg] at ht
    exact h.2.2.2.2.2 s (List.getElem?_mem hg) t ht

theorem add_transition_targets_spec (n k : Nat) (l : List finite_automata_transition)
    (hl : ∀ t ∈ l, CHAR_a ≤ t.symbol ∧ t.symbol < CHAR_a + k ∧ t.to_state < n) :
    ∀ tt, transition_to_wf n k tt →
      transition_to_wf n k (add_transition_targets tt l) ∧
      ∀ i q, i < k →
        (dfa_state_contains_nfa_state ((add_transition_targets tt l).getD i zero_dfa_state) q = true
          ↔ dfa_state_contains_nfa_state (tt.getD i zero_dfa_state) q = true ∨
            ∃ t ∈ l, t.symbol = CHAR_a + i ∧ t.to_state = q) := by
  induction l with
  | nil =>
    intro tt htt
    exact ⟨htt, fun i q _ => by simp [add_transition_targets]⟩
  | cons t l ih =>
    intro tt htt
    obtain ⟨ht1, ht2, ht3⟩ := hl t (List.mem_cons_self _ _)
    have hidx : t.symbol - CHAR_a < k := by omega
    have hstep : add_transition_targets tt (t :: l) =
        add_transition_targets (tt.set (t.symbol - CHAR_a) (add_nfa_state_to_dfa_state
          (tt.getD (t.symbol - CHAR_a) zero_dfa_state) t.to_state)) l := by
      simp only [add_transition_targets, List.foldl_cons]
      rw [if_neg (by omega)]
    have hlen : t.symbol - CHAR_a < tt.length := by rw [htt.1]; exact hidx
    have hwf0 := htt.2 _ hidx
    have htt2 : transition_to_wf n k (tt.set (t.symbol - CHAR_a) (add_nfa_state_to_dfa_state
          (tt.getD (t.symbol - CHAR_a) zero_dfa_state) t.to_state)) := by
      refine ⟨by rw [List.length_set]; exact htt.1, fun i hi => ?_⟩
      rw [getD_set_eq_ite _ _ _ _ _ hlen]
      by_cases h : i = t.symbol - CHAR_a
      · rw [if_pos h]; exact state_set_wf_add n _ _ hwf0 ht3
      · rw [if_neg h]; exact htt.2 i hi
    obtain ⟨r1, r2⟩ := ih (fun t ht => hl t (List.mem_cons_of_mem _ ht)) _ htt2
    rw [hstep]
    refine ⟨r1, fun i q hi => ?_⟩
    rw [r2 i q hi, getD_set_eq_ite _ _ _ _ _ hlen]
    have hbl : t.to_state / 64 < (tt.getD (t.symbol - CHAR_a) zero_dfa_state).bitset.length := by
      rw [hwf0.2.1]; omega
    by_cases h : i = t.symbol - CHAR_a
    · rw [if_pos h, contains_add _ _ _ hbl, ← h]
      simp only [Bool.or_eq_true, decide_eq_true_eq, List.mem_cons, exists_eq_or_imp]
      have e : t.symbol = CHAR_a + i ↔ True := by simp; omega
      rw [e]
      constructor
      · rintro ((h1 | h1) | h1)
        · exact Or.inl h1
        · exact Or.inr (Or.inl ⟨trivial, h1.symm⟩)
        · exact Or.inr (Or.inr h1)
      · rintro (h1 | ⟨_, h1⟩ | h1)
        · exact Or.inl (Or.inl h1)
        · exact Or.inl (Or.inr h1.symm)
        · exact Or.inr h1
    · rw [if_neg h]
      simp only [List.mem_cons, exists_eq_or_imp]
      have e : ¬ t.symbol = CHAR_a + i := by omega
      simp [e]

theorem fresh_transition_to_wf (nfa : finite_automata) :
    transition_to_wf nfa.state_number nfa.alphabet_size (fresh_transition_to nfa) ∧
      ∀ i q, dfa_state_contains_nfa_state ((fresh_transition_to nfa).getD i zero_dfa_state) q
        = false := by
  constructor
  · refine ⟨by simp [fresh_transition_to], fun i hi => ?_⟩
    simp only [fresh_transition_to, List.getD_eq_getElem?_getD, List.getElem?_map,
      List.getElem?_range hi, Option.map_some', Option.getD_some]
    exact state_set_wf_create _
  · intro i q
    simp only [fresh_transition_to, List.getD_eq_getElem?_getD, List.getElem?_map]
    cases hg : (List.range nfa.alphabet_size)[i]? with
    | none => simp [zero_dfa_state, contains_eq_testBit]
    | some v => simp [contains_create]

theorem fill_transition_to_upto_spec (nfa : finite_automata) (h : nfa_wf nfa) (S : dfa_state)
    (m : Nat) :
    transition_to_wf nfa.state_number nfa.alphabet_size (fill_transition_to_upto nfa S m) ∧
      ∀ i q, i < nfa.alphabet_size →
        (dfa_state_contains_nfa_state ((fill_transition_to_upto nfa S m).getD i zero_dfa_state) q
            = true ↔
          ∃ p, p < m ∧ dfa_state_contains_nfa_state S p = true ∧
            ∃ t ∈ transitions_of nfa p, t.symbol = CHAR_a + i ∧ t.to_state = q) := by
  induction m with
  | zero =>
    obtain ⟨f1, f2⟩ := fresh_transition_to_wf nfa
    refine ⟨f1, fun i q _ => ?_⟩
    simp only [fill_transition_to_upto, List.range_zero, List.foldl_nil]
    rw [f2 i q]
    simp
  | succ m ih =>
    obtain ⟨ih1, ih2⟩ := ih
    have hstep : fill_transition_to_upto nfa S (m + 1) =
        if !dfa_state_contains_nfa_state S m then fill_transition_to_upto nfa S m
        else add_transition_targets (fill_transition_to_upto nfa S m) (transitions_of nfa m) := by
      simp only [fill_transition_to_upto, List.range_succ, List.foldl_append, List.foldl_cons,
        List.foldl_nil, transitions_of]
    rw [hstep]
    by_cases hc : dfa_state_contains_nfa_state S m = true
    · rw [if_neg (by simp [hc])]
      obtain ⟨r1, r2⟩ := add_transition_targets_spec nfa.state_number nfa.alphabet_size
        (transitions_of nfa m) (fun t ht => nfa_wf_transition nfa h m t ht) _ ih1
      refine ⟨r1, fun i q hi => ?_⟩
      rw [r2 i q hi, ih2 i q hi]
      constructor
      · rintro (⟨p, hp, hr⟩ | hr)
        · exact ⟨p, by omega, hr⟩
        · exact ⟨m, by omega, hc, hr⟩
      · rintro ⟨p, hp, hcp, hr⟩
        by_cases hpm : p = m
        · subst hpm; exact Or.inr hr
        · exact Or.inl ⟨p, by omega, hcp, hr⟩
    · rw [if_pos (by simpa using hc)]
      refine ⟨ih1, fun i q hi => ?_⟩
      rw [ih2 i q hi]
      constructor
      · rintro ⟨p, hp, hr⟩; exact ⟨p, by omega, hr⟩
      · rintro ⟨p, hp, hcp, hr⟩
        by_cases hpm : p = m
        · subst hpm; exact absurd hcp hc
        · exact ⟨p, by omega, hcp, hr⟩

theorem fill_transition_to_spec (nfa : finite_automata) (h : nfa_wf nfa) (S : dfa_state) :
    transition_to_wf nfa.state_number nfa.alphabet_size (fill_transition_to nfa S) ∧
      ∀ i q, i < nfa.alphabet_size →
        (dfa_state_contains_nfa_state ((fill_transition_to nfa S).getD i zero_dfa_state) q = true
          ↔ in_move nfa S i q) :=
  fill_transition_to_upto_spec nfa h S nfa.state_number

/-! ## Lemmas: discovery

The invariant of the discovery loop, the bound on the size of the registry
that makes the loop end, and the state of the registry at its end. -/

theorem members_subset (n : Nat) (S : dfa_state) (hS : state_set_wf n S) (q : Nat)
    (hq : q ∈ members S) : q < n := by
  by_contra hn
  have := hS.2.2.2 q (by omega)
  simp only [members, Set.mem_setOf_eq] at hq
  rw [this] at hq; exact Bool.noConfusion hq

theorem transitions_of_oob (nfa : finite_automata) (p : Nat) (hp : nfa.states.length ≤ p) :
    transitions_of nfa p = [] := by
  unfold transitions_of
  rw [List.getD_eq_getElem?_getD, List.getElem?_eq_none hp]; rfl

theorem move_set_wf (nfa : finite_automata) (h : nfa_wf nfa) (S : dfa_state) (i : Nat)
    (hi : i < nfa.alphabet_size) : state_set_wf nfa.state_number (move_set nfa S i) :=
  (fill_transition_to_spec nfa h S).1.2 i hi

theorem members_move_set (nfa : finite_automata) (h : nfa_wf nfa) (S : dfa_state) (i : Nat)
    (hi : i < nfa.alphabet_size) :
    members (move_set nfa S i) = move nfa (members S) (CHAR_a + i) := by
  ext q
  simp only [members, move, Set.mem_setOf_eq, move_set]
  rw [(fill_transition_to_spec nfa h S).2 i q hi]
  unfold in_move
  constructor
  · rintro ⟨p, _, hc, hr⟩; exact ⟨p, hc, hr⟩
  · rintro ⟨p, hc, t, ht, hr⟩
    refine ⟨p, ?_, hc, t, ht, hr⟩
    by_contra hp
    rw [transitions_of_oob nfa p (by rw [h.2.2.2.2.1]; omega)] at ht
    exact absurd ht (List.not_mem_nil _)

theorem is_empty_iff_members (n : Nat) (S : dfa_state) (hS : state_set_wf n S) :
    is_dfa_state_empty S = true ↔ members S = ∅ := by
  rw [is_empty_iff_all n S hS, Set.eq_empty_iff_forall_not_mem]
  simp [members]

theorem state_set_eq_of_members (n : Nat) (a b : dfa_state) (ha : state_set_wf n a)
    (hb : state_set_wf n b) (h : members a = members b) : a = b := by
  apply state_set_ext n a b ha hb
  intro q _
  have : q ∈ members a ↔ q ∈ members b := by rw [h]
  simp only [members, Set.mem_setOf_eq] at this
  rw [Bool.eq_iff_iff]; exact this

theorem initial_set_wf (nfa : finite_automata) (h : nfa_wf nfa) :
    state_set_wf nfa.state_number (initial_set nfa) :=
  state_set_wf_add _ _ _ (state_set_wf_create _) h.2.1

theorem members_initial_set (nfa : finite_automata) (h : nfa_wf nfa) :
    members (initial_set nfa) = {nfa.initial_state} := by
  ext q
  have hl : nfa.initial_state / 64 < (create_dfa_state nfa.state_number).bitset.length := by
    have := h.2.1
    rw [(state_set_wf_create nfa.state_number).2.1]; omega
  simp only [members, initial_set, Set.mem_setOf_eq, Set.mem_singleton_iff]
  rw [contains_add _ _ _ hl, contains_create]
  simp

theorem scan_wf_some (n : Nat) (r : dfa_state_registry) (s : dfa_state)
    (hr : registry_sets_ok n r) (hs : state_set_wf n s) (i : Nat)
    (h : registry_scan r s = some i) :
    i < r.size ∧ get_dfa_state_from_registry_by_id r i = s := by
  rw [registry_scan_some] at h
  refine ⟨h.2.1, ?_⟩
  exact ((compare_iff_eq n s _ hs (hr.2.2.1 i h.2.1)).1 h.1).symm

theorem scan_wf_of_mem (n : Nat) (r : dfa_state_registry) (s : dfa_state)
    (hr : registry_sets_ok n r) (i : Nat) (hi : i < r.size)
    (h : get_dfa_state_from_registry_by_id r i = s) : registry_scan r s = some i := by
  rw [registry_scan_some]
  have hs : state_set_wf n s := h ▸ hr.2.2.1 i hi
  refine ⟨?_, hi, ?_⟩
  · rw [h]; exact (compare_iff_eq n s s hs hs).2 rfl
  · intro j hj
    rw [← h]
    exact hr.2.1 i j hi (by omega) (by omega)

theorem add_fresh_sets_ok (n : Nat) (r : dfa_state_registry) (s : dfa_state)
    (hr : registry_sets_ok n r) (hs : state_set_wf n s) (hne : is_dfa_state_empty s = false)
    (h : registry_scan r s = none) :
    registry_sets_ok n (add_dfa_state_to_registry r s).1 ∧
      (add_dfa_state_to_registry r s).1.size = r.size + 1 ∧
      (add_dfa_state_to_registry r s).2 = r.size ∧
      get_dfa_state_from_registry_by_id (add_dfa_state_to_registry r s).1 r.size = s ∧
      ∀ i, i < r.size → get_dfa_state_from_registry_by_id (add_dfa_state_to_registry r s).1 i
        = get_dfa_state_from_registry_by_id r i := by
  obtain ⟨a1, a2, a3, a4, a5⟩ := add_fresh r s hr.1 h
  rw [copy_eq_self n s hs] at a4
  refine ⟨⟨a1, (add_preserves r s hr.1 hr.2.1).2, ?_, ?_⟩, a2, a3, a4, a5⟩
  · intro i hi
    rw [a2] at hi
    by_cases hi2 : i < r.size
    · rw [a5 i hi2]; exact hr.2.2.1 i hi2
    · have : i = r.size := by omega
      subst this; rw [a4]; exact hs
  · intro i hi
    rw [a2] at hi
    by_cases hi2 : i < r.size
    · rw [a5 i hi2]; exact hr.2.2.2 i hi2
    · have : i = r.size := by omega
      subst this; rw [a4]; exact hne

theorem add_new_states_upto_spec (n k : Nat) (tt : List dfa_state) (r : dfa_state_registry)
    (hr : registry_sets_ok n r) (htt : transition_to_wf n k tt) (m : Nat) (hm : m ≤ k) :
    registry_sets_ok n (add_new_states_upto tt r m) ∧
      r.size ≤ (add_new_states_upto tt r m).size ∧
      (∀ i, i < r.size → get_dfa_state_from_registry_by_id (add_new_states_upto tt r m) i
        = get_dfa_state_from_registry_by_id r i) ∧
      (∀ j, r.size ≤ j → j < (add_new_states_upto tt r m).size →
        ∃ i, i < m ∧ get_dfa_state_from_registry_by_id (add_new_states_upto tt r m) j
          = tt.getD i zero_dfa_state) ∧
      ∀ i, i < m → is_dfa_state_empty (tt.getD i zero_dfa_state) = false →
        ∃ j, j < (add_new_states_upto tt r m).size ∧
          get_dfa_state_from_registry_by_id (add_new_states_upto tt r m) j
            = tt.getD i zero_dfa_state := by
  induction m with
  | zero =>
    refine ⟨hr, Nat.le_refl _, fun _ _ => rfl, ?_, ?_⟩
    · intro j h1 h2
      simp only [add_new_states_upto, List.range_zero, List.foldl_nil] at h2
      omega
    · intro i hi; omega
  | succ m ih =>
    obtain ⟨i1, i2, i3, i4, i5⟩ := ih (by omega)
    have hstep : add_new_states_upto tt r (m + 1) =
        if is_dfa_state_empty (tt.getD m zero_dfa_state)
          || is_dfa_state_in_registry (add_new_states_upto tt r m) (tt.getD m zero_dfa_state)
        then add_new_states_upto tt r m
        else (add_dfa_state_to_registry (add_new_states_upto tt r m)
          (tt.getD m zero_dfa_state)).1 := by
      simp only [add_new_states_upto, List.range_succ, List.foldl_append, List.foldl_cons,
        List.foldl_nil]
    have hwf := htt.2 m (by omega)
    rw [hstep]
    generalize add_new_states_upto tt r m = r1 at i1 i2 i3 i4 i5 ⊢
    cases hscan : registry_scan r1 (tt.getD m zero_dfa_state) with
    | some j =>
      have hin : is_dfa_state_in_registry r1 (tt.getD m zero_dfa_state) = true := by
        unfold is_dfa_state_in_registry; rw [hscan]; rfl
      rw [hin, Bool.or_true, if_pos rfl]
      obtain ⟨s1, s2⟩ := scan_wf_some n r1 _ i1 hwf j hscan
      refine ⟨i1, i2, i3, ?_, ?_⟩
      · intro j' h1 h2
        obtain ⟨i, hi, he⟩ := i4 j' h1 h2
        exact ⟨i, by omega, he⟩
      · intro i hi hne
        by_cases him : i = m
        · subst him; exact ⟨j, s1, s2⟩
        · exact i5 i (by omega) hne
    | none =>
      have hin : is_dfa_state_in_registry r1 (tt.getD m zero_dfa_state) = false := by
        unfold is_dfa_state_in_registry; rw [hscan]; rfl
      rw [hin, Bool.or_false]
      cases hemp : is_dfa_state_empty (tt.getD m zero_dfa_state) with
      | true =>
        rw [if_pos rfl]
        refine ⟨i1, i2, i3, ?_, ?_⟩
        · intro j' h1 h2
          obtain ⟨i, hi, he⟩ := i4 j' h1 h2
          exact ⟨i, by omega, he⟩
        · intro i hi hne
          by_cases him : i = m
          · subst him; rw [hemp] at hne; exact Bool.noConfusion hne
          · exact i5 i (by omega) hne
      | false =>
        rw [if_neg (by simp)]
        obtain ⟨a1, a2, _, a4, a5⟩ := add_fresh_sets_ok n r1 _ i1 hwf hemp hscan
        refine ⟨a1, by omega, ?_, ?_, ?_⟩
        · intro i hi
          rw [a5 i (by omega)]; exact i3 i hi
        · intro j' h1 h2
          by_cases hj : j' < r1.size
          · obtain ⟨i, hi, he⟩ := i4 j' h1 hj
            exact ⟨i, by omega, by rw [a5 j' hj]; exact he⟩
          · have : j' = r1.size := by omega
            subst this
            exact ⟨m, by omega, a4⟩
        · intro i hi hne
          by_cases him : i = m
          · subst him; exact ⟨r1.size, by omega, a4⟩
          · obtain ⟨j, hj, he⟩ := i5 i (by omega) hne
            exact ⟨j, by omega, by rw [a5 j hj]; exact he⟩

theorem add_new_states_eq (nfa : finite_automata) (tt : List dfa_state)
    (r : dfa_state_registry) :
    add_new_states nfa tt r = add_new_states_upto tt r nfa.alphabet_size := rfl

theorem move_word_snoc (nfa : finite_automata) (X : Set Nat) (w : List Nat) (c : Nat) :
    move_word nfa X (w ++ [c]) = move nfa (move_word nfa X w) c := by
  simp [move_word, List.foldl_append]

theorem discovery_body (nfa : finite_automata) (h : nfa_wf nfa) (m : Nat)
    (r : dfa_state_registry) (hinv : discovery_inv nfa m r) (hm : m < r.size) :
    discovery_inv nfa (m + 1)
        (add_new_states nfa (fill_transition_to nfa (get_dfa_state_from_registry_by_id r m)) r) ∧
      r.size ≤ (add_new_states nfa
        (fill_transition_to nfa (get_dfa_state_from_registry_by_id r m)) r).size := by
  obtain ⟨v1, v2, v3, v4, v5⟩ := hinv
  have htt := (fill_transition_to_spec nfa h (get_dfa_state_from_registry_by_id r m)).1
  obtain ⟨a1, a2, a3, a4, a5⟩ := add_new_states_upto_spec nfa.state_number nfa.alphabet_size
    _ r v1 htt nfa.alphabet_size (Nat.le_refl _)
  rw [add_new_states_eq]
  generalize add_new_states_upto
    (fill_transition_to nfa (get_dfa_state_from_registry_by_id r m)) r nfa.alphabet_size = r2
    at a1 a2 a3 a4 a5 ⊢
  refine ⟨⟨a1, by omega, ?_, ?_, ?_⟩, a2⟩
  · rw [a3 0 v2]; exact v3
  · intro j hj
    by_cases hj2 : j < r.size
    · rw [a3 j hj2]; exact v4 j hj2
    · obtain ⟨i, hi, he⟩ := a4 j (by omega) hj
      obtain ⟨w, hw1, hw2⟩ := v4 m hm
      refine ⟨w ++ [CHAR_a + i], ?_, ?_⟩
      · intro c hc
        rcases List.mem_append.1 hc with hc | hc
        · exact hw1 c hc
        · simp only [List.mem_singleton] at hc
          subst hc; omega
      · rw [he, move_word_snoc, ← hw2]
        exact members_move_set nfa h _ i hi
  · intro j hj i hi hne
    by_cases hj2 : j < m
    · rw [a3 j (by omega)] at hne ⊢
      obtain ⟨j2, hj3, he⟩ := v5 j hj2 i hi hne
      exact ⟨j2, by omega, by rw [a3 j2 hj3]; exact he⟩
    · have : j = m := by omega
      subst this
      rw [a3 j hm] at hne ⊢
      exact a5 i hi hne

theorem registry_size_bound (n : Nat) (r : dfa_state_registry)
    (hr : registry_sets_ok n r) : r.size + 1 ≤ 2 ^ n := by
  obtain ⟨_, h2, h3, h4⟩ := hr
  let L : List dfa_state :=
    create_dfa_state n :: (List.range r.size).map (get_dfa_state_from_registry_by_id r)
  have hwf : ∀ s ∈ L, state_set_wf n s := by
    intro s hs
    rcases List.mem_cons.1 hs with hs | hs
    · rw [hs]; exact state_set_wf_create n
    · obtain ⟨i, hi, rfl⟩ := List.mem_map.1 hs
      exact h3 i (List.mem_range.1 hi)
  have hnd : L.Nodup := by
    refine List.nodup_cons.2 ⟨?_, ?_⟩
    · intro hmem
      obtain ⟨i, hi, he⟩ := List.mem_map.1 hmem
      have h5 := h4 i (List.mem_range.1 hi)
      rw [he] at h5
      have h6 : is_dfa_state_empty (create_dfa_state n) = true :=
        (is_empty_iff_all n _ (state_set_wf_create n)).2 (contains_create n)
      rw [h6] at h5; exact Bool.noConfusion h5
    · refine List.Nodup.map_on ?_ (List.nodup_range _)
      intro i hi j hj he
      by_contra hij
      have hi2 := List.mem_range.1 hi
      have hj2 := List.mem_range.1 hj
      have h5 := h2 i j hi2 hj2 hij
      rw [he, (compare_iff_eq n _ _ (h3 j hj2) (h3 j hj2)).2 rfl] at h5
      exact Bool.noConfusion h5
  have hnd2 : (L.map (membership n)).Nodup := by
    refine List.Nodup.map_on ?_ hnd
    intro a ha b hb he
    apply state_set_ext n a b (hwf a ha) (hwf b hb)
    intro q hq
    exact congrFun he ⟨q, hq⟩
  have hcard := List.Nodup.length_le_card hnd2
  simp only [L, List.length_map, List.length_cons, List.length_range, Fintype.card_pi,
    Fintype.card_bool, Finset.prod_const, Finset.card_univ, Fintype.card_fin] at hcard
  exact hcard

theorem discovery_loop_spec (nfa : finite_automata) (h : nfa_wf nfa) :
    ∀ fuel m r, discovery_inv nfa m r → m ≤ r.size → 2 ^ nfa.state_number ≤ fuel + m →
      ∃ r2, discovery_loop nfa fuel m r = some r2 ∧ discovery_inv nfa r2.size r2 := by
  intro fuel
  induction fuel with
  | zero =>
    intro m r hinv hm hf
    have := registry_size_bound _ r hinv.1
    omega
  | succ fuel ih =>
    intro m r hinv hm hf
    by_cases hlt : m < r.size
    · obtain ⟨b1, b2⟩ := discovery_body nfa h m r hinv hlt
      obtain ⟨r2, e, hr2⟩ := ih (m + 1) _ b1 (by omega) (by omega)
      refine ⟨r2, ?_, hr2⟩
      rw [← e]
      simp only [discovery_loop, get_registry_state_number, if_pos hlt]
    · have hm2 : m = r.size := by omega
      refine ⟨r, ?_, hm2 ▸ hinv⟩
      simp only [discovery_loop, get_registry_state_number, if_neg hlt]

theorem initial_registry_spec (nfa : finite_automata) (h : nfa_wf nfa) :
    discovery_inv nfa 0 (initial_registry nfa).1 ∧ (initial_registry nfa).1.size = 1 ∧
      (initial_registry nfa).2 = 0 := by
  have hscan : registry_scan init_dfa_state_registry (initial_set nfa) = none := by
    rw [registry_scan_none]; intro j hj; simp [init_dfa_state_registry] at hj
  have hok : registry_sets_ok nfa.state_number init_dfa_state_registry := by
    refine ⟨registry_ok_init, ?_, ?_, ?_⟩
    · intro i j hi; simp [init_dfa_state_registry] at hi
    · intro i hi; simp [init_dfa_state_registry] at hi
    · intro i hi; simp [init_dfa_state_registry] at hi
  have hne : is_dfa_state_empty (initial_set nfa) = false := by
    rw [Bool.eq_false_iff]
    intro he
    rw [is_empty_iff_members _ _ (initial_set_wf nfa h), members_initial_set nfa h] at he
    exact Set.singleton_ne_empty _ he
  obtain ⟨a1, a2, a3, a4, _⟩ := add_fresh_sets_ok nfa.state_number init_dfa_state_registry
    (initial_set nfa) hok (initial_set_wf nfa h) hne hscan
  have hsz : init_dfa_state_registry.size = 0 := rfl
  rw [hsz] at a2 a3 a4
  refine ⟨⟨a1, ?_, a4, ?_, ?_⟩, a2, a3⟩
  · show 0 < (add_dfa_state_to_registry init_dfa_state_registry (initial_set nfa)).1.size
    omega
  · intro j hj
    have hj2 : j < (add_dfa_state_to_registry init_dfa_state_registry (initial_set nfa)).1.size :=
      hj
    have : j = 0 := by omega
    subst this
    refine ⟨[], fun c hc => absurd hc (List.not_mem_nil _), ?_⟩
    show members (get_dfa_state_from_registry_by_id
      (add_dfa_state_to_registry init_dfa_state_registry (initial_set nfa)).1 0) = _
    rw [a4, members_initial_set nfa h]; rfl
  · intro j hj; omega

theorem discover_spec (nfa : finite_automata) (h : nfa_wf nfa) (fuel : Nat)
    (hf : 2 ^ nfa.state_number ≤ fuel) :
    ∃ r, discover fuel nfa = some r ∧ discovered nfa r := by
  obtain ⟨i1, i2, _⟩ := initial_registry_spec nfa h
  exact discovery_loop_spec nfa h fuel 0 _ i1 (by omega) (by omega)

/-! ## Lemmas: the output automaton

The second loop writes state `id` of the output once: `output_state`. -/

theorem fill_final_and_transition_to_upto (nfa : finite_automata) (S : dfa_state)
    (out : finite_automata) (id m : Nat) :
    (List.range m).foldl (fun acc input_state =>
      if !dfa_state_contains_nfa_state S input_state then acc
      else
        let output_dfa :=
          if (nfa.states.getD input_state zero_state).is_final then
            set_finite_automata_final_state acc.1 id
          else acc.1
        (output_dfa, add_transition_targets acc.2
          (nfa.states.getD input_state zero_state).first_transition))
      (out, fresh_transition_to nfa)
    = (if has_final_upto nfa S m then set_finite_automata_final_state out id else out,
        fill_transition_to_upto nfa S m) := by
  induction m with
  | zero => simp [has_final_upto, fill_transition_to_upto]
  | succ m ih =>
    rw [List.range_succ, List.foldl_append, ih]
    have hf : has_final_upto nfa S (m + 1) = (has_final_upto nfa S m ||
        (dfa_state_contains_nfa_state S m && (nfa.states.getD m zero_state).is_final)) := by
      simp [has_final_upto, List.range_succ, List.any_append]
    have ht : fill_transition_to_upto nfa S (m + 1) =
        if !dfa_state_contains_nfa_state S m then fill_transition_to_upto nfa S m
        else add_transition_targets (fill_transition_to_upto nfa S m)
          (nfa.states.getD m zero_state).first_transition := by
      simp only [fill_transition_to_upto, List.range_succ, List.foldl_append, List.foldl_cons,
        List.foldl_nil]
    have hidem : set_finite_automata_final_state (set_finite_automata_final_state out id) id
        = set_finite_automata_final_state out id := by
      unfold set_finite_automata_final_state
      by_cases hid : id < out.states.length
      · simp only [List.set_set]
        rw [getD_set_eq_ite _ _ _ _ _ hid, if_pos rfl]
      · have hset : ∀ s, out.states.set id s = out.states := fun s =>
          List.set_eq_of_length_le (by omega)
        simp only [hset]
    rw [hf, ht]
    simp only [List.foldl_cons, List.foldl_nil]
    cases hc : dfa_state_contains_nfa_state S m <;>
      cases hfin : (nfa.states.getD m zero_state).is_final <;>
      cases hp : has_final_upto nfa S m <;> simp [hidem]

theorem set_final_eq (out : finite_automata) (id : Nat) :
    set_finite_automata_final_state out id =
      with_state out id { out.states.getD id zero_state with is_final := true } := rfl

theorem add_output_transitions_upto (nfa : finite_automata) (r : dfa_state_registry)
    (out : finite_automata) (id : Nat) (hid : id < out.states.length) (m : Nat) :
    (List.range m).foldl (fun output_dfa i =>
      let target :=
        if is_dfa_state_empty
            ((fill_transition_to nfa (get_dfa_state_from_registry_by_id r id)).getD i
              zero_dfa_state) then
          copy_dfa_state (get_dfa_state_from_registry_by_id r id)
        else (fill_transition_to nfa (get_dfa_state_from_registry_by_id r id)).getD i
          zero_dfa_state
      let to_state := get_state_id_from_registry r target
      add_finite_automata_transition output_dfa id (CHAR_a + i) to_state) out
    = with_state out id { out.states.getD id zero_state with
        first_transition := output_transitions nfa r id m
          ++ (out.states.getD id zero_state).first_transition } := by
  induction m with
  | zero =>
    simp only [List.range_zero, List.foldl_nil, output_transitions, List.map_nil,
      List.reverse_nil, List.nil_append, with_state]
    have : out.states.set id (out.states.getD id zero_state) = out.states := by
      apply List.ext_getElem (by simp)
      intro j h1 h2
      rw [List.getElem_set]
      split
      · next h => subst h; simp [List.getD_eq_getElem?_getD, List.getElem?_eq_getElem h2]
      · rfl
    rw [this]
  | succ m ih =>
    rw [List.range_succ, List.foldl_append, ih]
    simp only [List.foldl_cons, List.foldl_nil, add_finite_automata_transition, with_state,
      List.set_set]
    rw [getD_set_eq_ite _ _ _ _ _ hid, if_pos rfl]
    simp only [output_transitions, List.range_succ, List.map_append, List.map_cons, List.map_nil,
      List.reverse_append, List.reverse_cons, List.reverse_nil, List.nil_append,
      List.singleton_append, List.cons_append, target, target_set, move_set]

theorem fill_output_state_eq (nfa : finite_automata) (r : dfa_state_registry)
    (out : finite_automata) (id : Nat) (hid : id < out.states.length)
    (hz : out.states.getD id zero_state = zero_state) :
    fill_output_state nfa r out id = with_state out id (output_state nfa r id) := by
  unfold fill_output_state
  simp only []
  unfold fill_final_and_transition_to add_output_transitions
  rw [fill_final_and_transition_to_upto]
  simp only []
  have hfold : fill_transition_to_upto nfa (get_dfa_state_from_registry_by_id r id)
      nfa.state_number = fill_transition_to nfa (get_dfa_state_from_registry_by_id r id) := rfl
  rw [hfold]
  cases hfin : has_final_upto nfa (get_dfa_state_from_registry_by_id r id) nfa.state_number
  · simp only [Bool.false_eq_true, if_false]
    rw [add_output_transitions_upto nfa r out id hid, hz]
    simp [output_state, hfin, zero_state]
  · simp only [if_true]
    rw [add_output_transitions_upto nfa r _ id
      (by simp [set_finite_automata_final_state]; exact hid)]
    simp only [set_finite_automata_final_state, with_state, List.set_set]
    rw [getD_set_eq_ite _ _ _ _ _ hid, if_pos rfl, hz]
    simp [output_state, hfin, zero_state]

theorem materialize_upto (nfa : finite_automata) (init : Nat) (r : dfa_state_registry)
    (m : Nat) (hm : m ≤ r.size) :
    let out := (List.range m).foldl (fill_output_state nfa r)
      (init_finite_automata_states
        { alphabet_size := nfa.alphabet_size
          state_number := get_registry_state_number r
          initial_state := init
          states := [] })
    out.alphabet_size = nfa.alphabet_size ∧ out.state_number = r.size ∧
      out.initial_state = init ∧ out.states.length = r.size ∧
      ∀ id, id < r.size → out.states.getD id zero_state =
        if id < m then output_state nfa r id else zero_state := by
  induction m with
  | zero =>
    simp only [List.range_zero, List.foldl_nil, init_finite_automata_states,
      get_registry_state_number, List.length_replicate, Nat.not_lt_zero, if_false, true_and]
    intro id hid
    simp [List.getD_eq_getElem?_getD, List.getElem?_replicate, hid]
  | succ m ih =>
    obtain ⟨i1, i2, i3, i4, i5⟩ := ih (by omega)
    simp only [List.range_succ, List.foldl_append, List.foldl_cons, List.foldl_nil]
    generalize (List.range m).foldl (fill_output_state nfa r) _ = out at i1 i2 i3 i4 i5 ⊢
    have hmz := i5 m (by omega)
    rw [if_neg (Nat.lt_irrefl m)] at hmz
    rw [fill_output_state_eq nfa r out m (by omega) hmz]
    refine ⟨i1, i2, i3, by simp [with_state, i4], fun id hid => ?_⟩
    simp only [with_state]
    rw [getD_set_eq_ite _ _ _ _ _ (by omega)]
    by_cases h : id = m
    · subst h; simp
    · rw [if_neg h, i5 id hid]
      by_cases h2 : id < m
      · rw [if_pos h2, if_pos (by omega)]
      · rw [if_neg h2, if_neg (by omega)]

theorem materialize_spec (nfa : finite_automata) (init : Nat) (r : dfa_state_registry) :
    (materialize nfa init r).alphabet_size = nfa.alphabet_size ∧
      (materialize nfa init r).state_number = r.size ∧
      (materialize nfa init r).initial_state = init ∧
      (materialize nfa init r).states.length = r.size ∧
      ∀ id, id < r.size →
        (materialize nfa init r).states.getD id zero_state = output_state nfa r id := by
  obtain ⟨i1, i2, i3, i4, i5⟩ := materialize_upto nfa init r r.size (Nat.le_refl _)
  refine ⟨i1, i2, i3, i4, fun id hid => ?_⟩
  have := i5 id hid
  rw [if_pos hid] at this
  exact this

/-! ## Lemmas: runs and reachable sets -/

theorem move_empty (fa : finite_automata) (c : Nat) : move fa ∅ c = ∅ := by
  ext q; simp [move]

theorem move_word_empty (fa : finite_automata) (w : List Nat) : move_word fa ∅ w = ∅ := by
  induction w with
  | nil => rfl
  | cons c w ih =>
    show move_word fa (move fa ∅ c) w = ∅
    rw [move_empty]; exact ih

theorem move_word_cons (fa : finite_automata) (X : Set Nat) (c : Nat) (w : List Nat) :
    move_word fa X (c :: w) = move_word fa (move fa X c) w := rfl

theorem mem_move_word (fa : finite_automata) (w : List Nat) :
    ∀ (X : Set Nat) (q : Nat), q ∈ move_word fa X w ↔ ∃ x ∈ X, q ∈ move_word fa {x} w := by
  induction w with
  | nil =>
    intro X q
    simp [move_word]
  | cons c w ih =>
    intro X q
    rw [move_word_cons, ih]
    constructor
    · rintro ⟨y, ⟨p, hp, t, ht, hc, hq⟩, hy⟩
      refine ⟨p, hp, ?_⟩
      rw [move_word_cons, ih]
      exact ⟨y, ⟨p, rfl, t, ht, hc, hq⟩, hy⟩
    · rintro ⟨x, hx, hq⟩
      rw [move_word_cons, ih] at hq
      obtain ⟨y, ⟨p, hp, t, ht, hc, hy⟩, hq2⟩ := hq
      have hp2 : p = x := hp
      subst hp2
      exact ⟨y, ⟨p, hx, t, ht, hc, hy⟩, hq2⟩

theorem exists_run_iff (fa : finite_automata) (P : Nat → Bool) (w : List Nat) :
    ∀ q, exists_run fa P q w = true ↔ ∃ p ∈ move_word fa {q} w, P p = true := by
  induction w with
  | nil =>
    intro q
    simp [exists_run, move_word]
  | cons c w ih =>
    intro q
    simp only [exists_run, List.any_eq_true, Bool.and_eq_true, beq_iff_eq]
    constructor
    · rintro ⟨t, ht, hc, hr⟩
      obtain ⟨p, hp, hP⟩ := (ih t.to_state).1 hr
      refine ⟨p, ?_, hP⟩
      rw [move_word_cons, mem_move_word]
      exact ⟨t.to_state, ⟨q, rfl, t, ht, hc, rfl⟩, hp⟩
    · rintro ⟨p, hp, hP⟩
      rw [move_word_cons, mem_move_word] at hp
      obtain ⟨y, ⟨q2, hq2, t, ht, hc, hy⟩, hp2⟩ := hp
      have : q2 = q := hq2
      subst this
      refine ⟨t, ht, hc, (ih t.to_state).2 ⟨p, ?_, hP⟩⟩
      rw [hy]; exact hp2

theorem nfa_has_run_iff (fa : finite_automata) (w : List Nat) :
    nfa_has_run fa w = true ↔ (move_word fa {fa.initial_state} w).Nonempty := by
  unfold nfa_has_run
  rw [exists_run_iff]
  constructor
  · rintro ⟨p, hp, _⟩; exact ⟨p, hp⟩
  · rintro ⟨p, hp⟩; exact ⟨p, hp, rfl⟩

theorem nfa_accepts_iff (fa : finite_automata) (w : List Nat) :
    nfa_accepts fa w = true ↔
      ∃ p ∈ move_word fa {fa.initial_state} w, is_final_state fa p = true :=
  exists_run_iff fa _ w fa.initial_state

/-! ## Lemmas: targets of the output transitions -/

theorem target_of_nonempty (nfa : finite_automata) (r : dfa_state_registry)
    (hr : discovered nfa r) (id i : Nat) (hid : id < r.size) (hi : i < nfa.alphabet_size)
    (hne : is_dfa_state_empty (move_set nfa (get_dfa_state_from_registry_by_id r id) i) = false) :
    registry_scan r (target_set nfa r id i) = some (target nfa r id i) ∧
      target nfa r id i < r.size ∧
      get_dfa_state_from_registry_by_id r (target nfa r id i)
        = move_set nfa (get_dfa_state_from_registry_by_id r id) i := by
  obtain ⟨j, hj, he⟩ := hr.2.2.2.2 id hid i hi hne
  have hts : target_set nfa r id i = move_set nfa (get_dfa_state_from_registry_by_id r id) i := by
    unfold target_set; rw [hne]; rfl
  have hscan := scan_wf_of_mem nfa.state_number r _ hr.1 j hj he
  have ht : target nfa r id i = j := by
    unfold target get_state_id_from_registry; rw [hts, hscan]
  rw [ht, hts]
  exact ⟨hscan, hj, he⟩

theorem target_of_empty (nfa : finite_automata) (r : dfa_state_registry)
    (hr : discovered nfa r) (id i : Nat) (hid : id < r.size)
    (he : is_dfa_state_empty (move_set nfa (get_dfa_state_from_registry_by_id r id) i) = true) :
    registry_scan r (target_set nfa r id i) = some id ∧ target nfa r id i = id := by
  have hts : target_set nfa r id i = get_dfa_state_from_registry_by_id r id := by
    unfold target_set; rw [he, if_pos rfl]
    exact copy_eq_self nfa.state_number _ (hr.1.2.2.1 id hid)
  have hscan := scan_wf_of_mem nfa.state_number r _ hr.1 id hid rfl
  refine ⟨by rw [hts]; exact hscan, ?_⟩
  unfold target get_state_id_from_registry; rw [hts, hscan]

theorem find_output_transitions (nfa : finite_automata) (r : dfa_state_registry) (id i m : Nat) :
    (output_transitions nfa r id m).find? (fun t => t.symbol == CHAR_a + i) =
      if i < m then some ⟨CHAR_a + i, target nfa r id i⟩ else none := by
  induction m with
  | zero => simp [output_transitions]
  | succ m ih =>
    have hstep : output_transitions nfa r id (m + 1) =
        ⟨CHAR_a + m, target nfa r id m⟩ :: output_transitions nfa r id m := by
      simp [output_transitions, List.range_succ]
    rw [hstep, List.find?_cons]
    by_cases him : m = i
    · subst him; simp
    · have : (CHAR_a + m == CHAR_a + i) = false := by simp; omega
      simp only [this]
      rw [ih]
      by_cases h1 : i < m
      · rw [if_pos h1, if_pos (by omega)]
      · rw [if_neg h1, if_neg (by omega)]

theorem transitions_of_materialize (nfa : finite_automata) (init : Nat)
    (r : dfa_state_registry) (id : Nat) (hid : id < r.size) :
    transitions_of (materialize nfa init r) id = output_transitions nfa r id nfa.alphabet_size := by
  unfold transitions_of
  rw [(materialize_spec nfa init r).2.2.2.2 id hid]; rfl

theorem dfa_step_materialize (nfa : finite_automata) (init : Nat) (r : dfa_state_registry)
    (id i : Nat) (hid : id < r.size) (hi : i < nfa.alphabet_size) :
    dfa_step (materialize nfa init r) id (CHAR_a + i) = some (target nfa r id i) := by
  unfold dfa_step
  rw [transitions_of_materialize nfa init r id hid, find_output_transitions, if_pos hi]; rfl

theorem is_final_materialize (nfa : finite_automata) (init : Nat)
    (r : dfa_state_registry) (hr : discovered nfa r) (id : Nat) (hid : id < r.size) :
    is_final_state (materialize nfa init r) id = true ↔
      ∃ q ∈ members (get_dfa_state_from_registry_by_id r id), is_final_state nfa q = true := by
  unfold is_final_state
  rw [(materialize_spec nfa init r).2.2.2.2 id hid]
  simp only [output_state, has_final_upto, List.any_eq_true, List.mem_range, Bool.and_eq_true,
    members, Set.mem_setOf_eq]
  constructor
  · rintro ⟨q, _, hc, hf⟩; exact ⟨q, hc, hf⟩
  · rintro ⟨q, hc, hf⟩
    exact ⟨q, members_subset _ _ (hr.1.2.2.1 id hid) q hc, hc, hf⟩

/-! ## Lemmas: the conversion as a whole -/

theorem convert_spec (nfa : finite_automata) (h : nfa_wf nfa) (fuel : Nat)
    (hf : 2 ^ nfa.state_number ≤ fuel) :
    ∃ r, discover fuel nfa = some r ∧ discovered nfa r ∧
      convert_nfa_to_dfa fuel nfa = some (materialize nfa 0 r) := by
  obtain ⟨r, hd, hr⟩ := discover_spec nfa h fuel hf
  refine ⟨r, hd, hr, ?_⟩
  unfold convert_nfa_to_dfa
  rw [hd, (initial_registry_spec nfa h).2.2]; rfl

theorem move_set_nonempty_iff (nfa : finite_automata) (h : nfa_wf nfa) (S : dfa_state) (i : Nat)
    (hi : i < nfa.alphabet_size) :
    is_dfa_state_empty (move_set nfa S i) = false ↔
      (move nfa (members S) (CHAR_a + i)).Nonempty := by
  rw [← members_move_set nfa h S i hi, Set.nonempty_iff_ne_empty, Ne,
    ← is_empty_iff_members _ _ (move_set_wf nfa h S i hi)]
  cases is_dfa_state_empty (move_set nfa S i) <;> simp

theorem dfa_run_simulates (nfa : finite_automata) (h : nfa_wf nfa) (init : Nat)
    (r : dfa_state_registry) (hr : discovered nfa r) (w : List Nat) :
    ∀ id, id < r.size → word_ok nfa w →
      (move_word nfa (members (get_dfa_state_from_registry_by_id r id)) w).Nonempty →
      ∃ j, j < r.size ∧ dfa_run (materialize nfa init r) id w = some j ∧
        members (get_dfa_state_from_registry_by_id r j)
          = move_word nfa (members (get_dfa_state_from_registry_by_id r id)) w := by
  induction w with
  | nil => intro id hid _ _; exact ⟨id, hid, rfl, rfl⟩
  | cons c w ih =>
    intro id hid hw hne
    obtain ⟨hc1, hc2⟩ := hw c (List.mem_cons_self _ _)
    have hci : c = CHAR_a + (c - CHAR_a) := by omega
    have hi : c - CHAR_a < nfa.alphabet_size := by omega
    rw [move_word_cons] at hne
    have hmv : (move nfa (members (get_dfa_state_from_registry_by_id r id)) c).Nonempty := by
      rw [Set.nonempty_iff_ne_empty]
      intro he
      rw [he, move_word_empty] at hne
      exact Set.not_nonempty_empty hne
    rw [hci] at hmv
    obtain ⟨_, t2, t3⟩ := target_of_nonempty nfa r hr id (c - CHAR_a) hid hi
      ((move_set_nonempty_iff nfa h _ _ hi).2 hmv)
    have hmem : members (get_dfa_state_from_registry_by_id r (target nfa r id (c - CHAR_a)))
        = move nfa (members (get_dfa_state_from_registry_by_id r id)) c := by
      rw [t3, members_move_set nfa h _ _ hi, ← hci]
    rw [← hmem] at hne
    obtain ⟨j, hj, hrun, hm⟩ := ih _ t2 (fun x hx => hw x (List.mem_cons_of_mem _ hx)) hne
    refine ⟨j, hj, ?_, ?_⟩
    · have hstep := dfa_step_materialize nfa init r id (c - CHAR_a) hid hi
      rw [← hci] at hstep
      simp only [dfa_run, hstep]
      exact hrun
    · rw [hm, hmem]; rfl

theorem accepts_iff_of_run (nfa : finite_automata) (h : nfa_wf nfa) (r : dfa_state_registry)
    (hr : discovered nfa r) (w : List Nat) (hw : word_ok nfa w)
    (hrun : nfa_has_run nfa w = true) :
    nfa_accepts nfa w = true ↔ dfa_accepts (materialize nfa 0 r) w = true := by
  have h0 : members (get_dfa_state_from_registry_by_id r 0) = {nfa.initial_state} := by
    rw [hr.2.2.1, members_initial_set nfa h]
  rw [nfa_has_run_iff, ← h0] at hrun
  obtain ⟨j, hj, hdr, hm⟩ := dfa_run_simulates nfa h 0 r hr w 0 hr.2.1 hw hrun
  rw [nfa_accepts_iff]
  unfold dfa_accepts
  rw [(materialize_spec nfa 0 r).2.2.1, hdr]
  simp only []
  rw [is_final_materialize nfa 0 r hr j hj, hm, h0]

/-! ## Language of the output (C1) -/

/-- C1 (as stated, refuted): the NFA with one final state and no transition
rejects the string `a`, and the DFA produced for it accepts `a`, because the
empty move set became a self-loop on the final state. -/
theorem c1_language_equivalence_fails :
    nfa_wf nfa_final_only ∧ word_ok nfa_final_only [97] ∧
      convert_nfa_to_dfa 2 nfa_final_only = some dfa_final_only ∧
      nfa_accepts nfa_final_only [97] = false ∧ dfa_accepts dfa_final_only [97] = true := by
  decide

/-- C1 (amended): for a well-formed NFA and a string `w` over the alphabet on
which the NFA has at least one run, the conversion returns a DFA, and the NFA
accepts `w` if and only if that DFA accepts `w`. -/
theorem c1_language_equivalence_on_runs (nfa : finite_automata) (fuel : Nat) (w : List Nat)
    (h : nfa_wf nfa) (hf : 2 ^ nfa.state_number ≤ fuel) (hw : word_ok nfa w)
    (hrun : nfa_has_run nfa w = true) :
    ∃ dfa, convert_nfa_to_dfa fuel nfa = some dfa ∧
      (nfa_accepts nfa w = true ↔ dfa_accepts dfa w = true) := by
  obtain ⟨r, _, hr, hc⟩ := convert_spec nfa h fuel hf
  exact ⟨_, hc, accepts_iff_of_run nfa h r hr w hw hrun⟩

theorem c1_language_equivalence_on_runs_witness :
    nfa_wf nfa_scenario ∧ nfa_has_run nfa_scenario [97, 97] = true ∧
      ∃ dfa, convert_nfa_to_dfa 4 nfa_scenario = some dfa ∧
        (nfa_accepts nfa_scenario [97, 97] = true ↔ dfa_accepts dfa [97, 97] = true) :=
  ⟨by decide, by decide,
    c1_language_equivalence_on_runs nfa_scenario 4 [97, 97] (by decide) (by decide) (by decide)
      (by decide)⟩

/-! ## Shape of the output: totality, targets, final states (C2 - C5) -/

theorem discover_scenario : discover 4 nfa_scenario = some registry_scenario := by decide

theorem discover_final_only : discover 2 nfa_final_only = some registry_final_only := by decide

theorem convert_scenario : convert_nfa_to_dfa 4 nfa_scenario = some dfa_scenario := by decide

theorem output_transitions_succ (nfa : finite_automata) (r : dfa_state_registry) (id m : Nat) :
    output_transitions nfa r id (m + 1) =
      ⟨CHAR_a + m, target nfa r id m⟩ :: output_transitions nfa r id m := by
  simp [output_transitions, List.range_succ]

theorem output_transitions_shape (nfa : finite_automata) (r : dfa_state_registry) (id m : Nat) :
    (output_transitions nfa r id m).length = m ∧
      (∀ i, (output_transitions nfa r id m).countP (fun t => t.symbol == CHAR_a + i)
        = if i < m then 1 else 0) ∧
      ∀ t ∈ output_transitions nfa r id m, CHAR_a ≤ t.symbol ∧ t.symbol < CHAR_a + m := by
  induction m with
  | zero => simp [output_transitions]
  | succ m ih =>
    obtain ⟨i1, i2, i3⟩ := ih
    rw [output_transitions_succ]
    refine ⟨by simp [i1], fun i => ?_, fun t ht => ?_⟩
    · rw [List.countP_cons, i2 i]
      have hb : ((CHAR_a + m == CHAR_a + i) = true) ↔ m = i := by simp
      simp only [hb]
      split_ifs <;> omega
    · rcases List.mem_cons.1 ht with ht | ht
      · subst ht; simp
      · have := i3 t ht; omega

/-- C2: for a well-formed NFA the conversion returns a DFA in which every state
id below `state_number` has a transition list of exactly `alphabet_size`
entries, exactly one of them labelled `'a' + i` for each `i < alphabet_size`, and
none with a label outside the alphabet. -/
theorem c2_output_is_total (nfa : finite_automata) (fuel : Nat) (h : nfa_wf nfa)
    (hf : 2 ^ nfa.state_number ≤ fuel) :
    ∃ dfa, convert_nfa_to_dfa fuel nfa = some dfa ∧
      dfa.alphabet_size = nfa.alphabet_size ∧ dfa.states.length = dfa.state_number ∧
      ∀ id, id < dfa.state_number →
        (transitions_of dfa id).length = nfa.alphabet_size ∧
        (∀ i, i < nfa.alphabet_size →
          (transitions_of dfa id).countP (fun t => t.symbol == CHAR_a + i) = 1) ∧
        ∀ t ∈ transitions_of dfa id,
          CHAR_a ≤ t.symbol ∧ t.symbol < CHAR_a + nfa.alphabet_size := by
  obtain ⟨r, _, _, hc⟩ := convert_spec nfa h fuel hf
  obtain ⟨m1, m2, _, m4, _⟩ := materialize_spec nfa 0 r
  refine ⟨_, hc, m1, by rw [m4, m2], fun id hid => ?_⟩
  rw [m2] at hid
  rw [transitions_of_materialize nfa 0 r id hid]
  obtain ⟨s1, s2, s3⟩ := output_transitions_shape nfa r id nfa.alphabet_size
  exact ⟨s1, fun i hi => by rw [s2 i, if_pos hi], s3⟩

theorem c2_output_is_total_witness :
    ∃ dfa, convert_nfa_to_dfa 4 nfa_scenario = some dfa ∧
      1 < dfa.state_number ∧ (transitions_of dfa 1).length = 1 ∧
      (transitions_of dfa 1).countP (fun t => t.symbol == CHAR_a + 0) = 1 := by
  obtain ⟨dfa, hc, _, _, hall⟩ := c2_output_is_total nfa_scenario 4 (by decide) (by decide)
  have hdfa : dfa = dfa_scenario := by
    rw [convert_scenario] at hc; exact (Option.some.inj hc).symm
  subst hdfa
  obtain ⟨h1, h2, _⟩ := hall 1 (by decide)
  exact ⟨_, hc, by decide, h1, h2 0 (by decide)⟩

/-- C3: for a well-formed NFA, a registered set `S` with id `id` and a symbol
`'a' + i` whose move set move(S, c) is non-empty, the lookup of the second loop
succeeds (the scan returns an index, so `(size_t) -1` is not returned), the
index is below the `state_number` of the DFA, the registry set at that index
denotes move(S, c), and it is the target of the transition of `id` labelled
`'a' + i`. -/
theorem c3_nonempty_move_is_registered (nfa : finite_automata) (fuel : Nat) (h : nfa_wf nfa)
    (hf : 2 ^ nfa.state_number ≤ fuel) :
    ∃ r dfa, discover fuel nfa = some r ∧ convert_nfa_to_dfa fuel nfa = some dfa ∧
      ∀ id i, id < r.size → i < nfa.alphabet_size →
        (move nfa (members (get_dfa_state_from_registry_by_id r id)) (CHAR_a + i)).Nonempty →
        ∃ j, registry_scan r (target_set nfa r id i) = some j ∧
          get_state_id_from_registry r (target_set nfa r id i) = j ∧
          j < dfa.state_number ∧
          members (get_dfa_state_from_registry_by_id r j)
            = move nfa (members (get_dfa_state_from_registry_by_id r id)) (CHAR_a + i) ∧
          dfa_step dfa id (CHAR_a + i) = some j ∧
          (⟨CHAR_a + i, j⟩ : finite_automata_transition) ∈ transitions_of dfa id := by
  obtain ⟨r, hd, hr, hc⟩ := convert_spec nfa h fuel hf
  refine ⟨r, _, hd, hc, fun id i hid hi hne => ?_⟩
  obtain ⟨t1, t2, t3⟩ := target_of_nonempty nfa r hr id i hid hi
    ((move_set_nonempty_iff nfa h _ _ hi).2 hne)
  have hstep := dfa_step_materialize nfa 0 r id i hid hi
  refine ⟨target nfa r id i, t1, rfl, ?_, ?_, hstep, ?_⟩
  · rw [(materialize_spec nfa 0 r).2.1]; exact t2
  · rw [t3, members_move_set nfa h _ _ hi]
  · have hfind := find_output_transitions nfa r id i nfa.alphabet_size
    rw [if_pos hi] at hfind
    rw [transitions_of_materialize nfa 0 r id hid]
    exact List.mem_of_find?_eq_some hfind

theorem c3_nonempty_move_is_registered_witness :
    ∃ r dfa, discover 4 nfa_scenario = some r ∧ convert_nfa_to_dfa 4 nfa_scenario = some dfa ∧
      (move nfa_scenario (members (get_dfa_state_from_registry_by_id r 0))
        (CHAR_a + 0)).Nonempty ∧
      ∃ j, registry_scan r (target_set nfa_scenario r 0 0) = some j ∧
        get_state_id_from_registry r (target_set nfa_scenario r 0 0) = j ∧
        j < dfa.state_number ∧
        members (get_dfa_state_from_registry_by_id r j)
          = move nfa_scenario (members (get_dfa_state_from_registry_by_id r 0)) (CHAR_a + 0) ∧
        dfa_step dfa 0 (CHAR_a + 0) = some j ∧
        (⟨CHAR_a + 0, j⟩ : finite_automata_transition) ∈ transitions_of dfa 0 := by
  obtain ⟨r, dfa, hd, hc, hall⟩ :=
    c3_nonempty_move_is_registered nfa_scenario 4 (by decide) (by decide)
  have hr : r = registry_scenario := by
    rw [discover_scenario] at hd; exact (Option.some.inj hd).symm
  subst hr
  have hne : (move nfa_scenario (members (get_dfa_state_from_registry_by_id registry_scenario 0))
      (CHAR_a + 0)).Nonempty :=
    ⟨1, 0, (by decide : dfa_state_contains_nfa_state _ 0 = true), ⟨97, 1⟩, by decide, rfl, rfl⟩
  exact ⟨_, dfa, hd, hc, hne, hall 0 0 (by decide) (by decide) hne⟩

/-- C4: for a well-formed NFA, a state of the produced DFA is final if and only
if the registry set of its id has a member that is a final NFA state. -/
theorem c4_final_iff_final_member (nfa : finite_automata) (fuel : Nat) (h : nfa_wf nfa)
    (hf : 2 ^ nfa.state_number ≤ fuel) :
    ∃ r dfa, discover fuel nfa = some r ∧ convert_nfa_to_dfa fuel nfa = some dfa ∧
      dfa.state_number = r.size ∧
      ∀ id, id < dfa.state_number →
        (is_final_state dfa id = true ↔
          ∃ q, dfa_state_contains_nfa_state (get_dfa_state_from_registry_by_id r id) q = true ∧
            is_final_state nfa q = true) := by
  obtain ⟨r, hd, hr, hc⟩ := convert_spec nfa h fuel hf
  have hsz := (materialize_spec nfa 0 r).2.1
  refine ⟨r, _, hd, hc, hsz, fun id hid => ?_⟩
  rw [hsz] at hid
  rw [is_final_materialize nfa 0 r hr id hid]
  constructor
  · rintro ⟨q, hq, hf⟩; exact ⟨q, hq, hf⟩
  · rintro ⟨q, hq, hf⟩; exact ⟨q, hq, hf⟩

theorem c4_final_iff_final_member_witness :
    ∃ r dfa, discover 4 nfa_scenario = some r ∧ convert_nfa_to_dfa 4 nfa_scenario = some dfa ∧
      dfa.state_number = r.size ∧ 1 < dfa.state_number ∧
      (is_final_state dfa 1 = true ↔
        ∃ q, dfa_state_contains_nfa_state (get_dfa_state_from_registry_by_id r 1) q = true ∧
          is_final_state nfa_scenario q = true) := by
  obtain ⟨r, dfa, hd, hc, hsz, hall⟩ :=
    c4_final_iff_final_member nfa_scenario 4 (by decide) (by decide)
  have hdfa : dfa = dfa_scenario := by
    rw [convert_scenario] at hc; exact (Option.some.inj hc).symm
  subst hdfa
  exact ⟨r, _, hd, hc, hsz, by decide, hall 1 (by decide)⟩

/-- C5: for a well-formed NFA, a DFA state id with set `S` and a symbol
`'a' + i` with move(S, c) empty, the transition of `id` labelled `'a' + i` is a
self-loop; the DFA has one state per registry entry and every registry entry
is a non-empty set, so no state stands for the empty set. -/
theorem c5_empty_move_is_self_loop (nfa : finite_automata) (fuel : Nat) (h : nfa_wf nfa)
    (hf : 2 ^ nfa.state_number ≤ fuel) :
    ∃ r dfa, discover fuel nfa = some r ∧ convert_nfa_to_dfa fuel nfa = some dfa ∧
      dfa.state_number = r.size ∧
      (∀ id, id < r.size → (members (get_dfa_state_from_registry_by_id r id)).Nonempty) ∧
      ∀ id i, id < r.size → i < nfa.alphabet_size →
        move nfa (members (get_dfa_state_from_registry_by_id r id)) (CHAR_a + i) = ∅ →
        dfa_step dfa id (CHAR_a + i) = some id ∧
          (⟨CHAR_a + i, id⟩ : finite_automata_transition) ∈ transitions_of dfa id ∧
          ∀ t ∈ transitions_of dfa id, t.symbol = CHAR_a + i → t.to_state = id := by
  obtain ⟨r, hd, hr, hc⟩ := convert_spec nfa h fuel hf
  refine ⟨r, _, hd, hc, (materialize_spec nfa 0 r).2.1, fun id hid => ?_,
    fun id i hid hi hemp => ?_⟩
  · rw [Set.nonempty_iff_ne_empty]
    intro he
    rw [← is_empty_iff_members _ _ (hr.1.2.2.1 id hid), hr.1.2.2.2 id hid] at he
    exact Bool.noConfusion he
  · have he : is_dfa_state_empty (move_set nfa (get_dfa_state_from_registry_by_id r id) i)
        = true := by
      rw [is_empty_iff_members _ _ (move_set_wf nfa h _ i hi), members_move_set nfa h _ i hi]
      exact hemp
    obtain ⟨_, t2⟩ := target_of_empty nfa r hr id i hid he
    have hstep := dfa_step_materialize nfa 0 r id i hid hi
    rw [t2] at hstep
    have hfind := find_output_transitions nfa r id i nfa.alphabet_size
    rw [if_pos hi, t2] at hfind
    have hmem : (⟨CHAR_a + i, id⟩ : finite_automata_transition)
        ∈ transitions_of (materialize nfa 0 r) id := by
      rw [transitions_of_materialize nfa 0 r id hid]
      exact List.mem_of_find?_eq_some hfind
    refine ⟨hstep, hmem, fun t ht hs => ?_⟩
    rw [transitions_of_materialize nfa 0 r id hid] at ht hmem
    have hcount := (output_transitions_shape nfa r id nfa.alphabet_size).2.1 i
    rw [if_pos hi, List.countP_eq_length_filter] at hcount
    have h1 : t ∈ (output_transitions nfa r id nfa.alphabet_size).filter
        (fun t => t.symbol == CHAR_a + i) := List.mem_filter.2 ⟨ht, by simp [hs]⟩
    have h2 : (⟨CHAR_a + i, id⟩ : finite_automata_transition) ∈
        (output_transitions nfa r id nfa.alphabet_size).filter
          (fun t => t.symbol == CHAR_a + i) := List.mem_filter.2 ⟨hmem, by simp⟩
    obtain ⟨x, hx⟩ := List.length_eq_one.1 hcount
    rw [hx] at h1 h2
    rw [List.mem_singleton] at h1 h2
    rw [h1, ← h2]

theorem c5_empty_move_is_self_loop_witness :
    ∃ r dfa, discover 2 nfa_final_only = some r ∧
      convert_nfa_to_dfa 2 nfa_final_only = some dfa ∧
      move nfa_final_only (members (get_dfa_state_from_registry_by_id r 0)) (CHAR_a + 0) = ∅ ∧
      dfa_step dfa 0 (CHAR_a + 0) = some 0 ∧
      (⟨CHAR_a + 0, 0⟩ : finite_automata_transition) ∈ transitions_of dfa 0 := by
  obtain ⟨r, dfa, hd, hc, _, _, hall⟩ :=
    c5_empty_move_is_self_loop nfa_final_only 2 (by decide) (by decide)
  have hr : r = registry_final_only := by
    rw [discover_final_only] at hd; exact (Option.some.inj hd).symm
  subst hr
  have htr : ∀ p, transitions_of nfa_final_only p = [] := by
    intro p; cases p <;> rfl
  have hemp : move nfa_final_only
      (members (get_dfa_state_from_registry_by_id registry_final_only 0)) (CHAR_a + 0) = ∅ := by
    rw [Set.eq_empty_iff_forall_not_mem]
    rintro q ⟨p, _, t, ht, _⟩
    rw [htr p] at ht
    exact absurd ht (List.not_mem_nil _)
  obtain ⟨h1, h2, _⟩ := hall 0 0 (by decide) (by decide) hemp
  exact ⟨_, dfa, hd, hc, hemp, h1, h2⟩

/-! ## Registry contents: reachability and distinctness (C6, C7) -/

theorem move_word_append (fa : finite_automata) (X : Set Nat) (u v : List Nat) :
    move_word fa X (u ++ v) = move_word fa (move_word fa X u) v := by
  simp [move_word, List.foldl_append]

/-- C6: for a well-formed NFA every set in the registry at the end of the
discovery is reached from the singleton of the initial state: some string of
symbols of the alphabet moves `{initial_state}` to it, and the set reached
after every prefix of that string is non-empty. -/
theorem c6_registered_sets_reachable (nfa : finite_automata) (fuel : Nat) (h : nfa_wf nfa)
    (hf : 2 ^ nfa.state_number ≤ fuel) :
    ∃ r, discover fuel nfa = some r ∧
      ∀ id, id < r.size → ∃ w, word_ok nfa w ∧
        members (get_dfa_state_from_registry_by_id r id)
          = move_word nfa {nfa.initial_state} w ∧
        ∀ u, u <+: w → (move_word nfa {nfa.initial_state} u).Nonempty := by
  obtain ⟨r, hd, hr⟩ := discover_spec nfa h fuel hf
  refine ⟨r, hd, fun id hid => ?_⟩
  obtain ⟨w, hw, hm⟩ := hr.2.2.2.1 id hid
  refine ⟨w, hw, hm, fun u hu => ?_⟩
  obtain ⟨v, rfl⟩ := hu
  rw [Set.nonempty_iff_ne_empty]
  intro he
  rw [move_word_append, he, move_word_empty] at hm
  rw [← is_empty_iff_members _ _ (hr.1.2.2.1 id hid), hr.1.2.2.2 id hid] at hm
  exact Bool.noConfusion hm

theorem c6_registered_sets_reachable_witness :
    ∃ r, discover 4 nfa_scenario = some r ∧ 1 < r.size ∧
      ∃ w, word_ok nfa_scenario w ∧
        members (get_dfa_state_from_registry_by_id r 1)
          = move_word nfa_scenario {nfa_scenario.initial_state} w ∧
        ∀ u, u <+: w → (move_word nfa_scenario {nfa_scenario.initial_state} u).Nonempty := by
  obtain ⟨r, hd, hall⟩ := c6_registered_sets_reachable nfa_scenario 4 (by decide) (by decide)
  have hr : r = registry_scenario := by
    rw [discover_scenario] at hd; exact (Option.some.inj hd).symm
  subst hr
  exact ⟨_, hd, by decide, hall 1 (by decide)⟩

theorem registry_after_inv (sets : List dfa_state) :
    registry_ok (registry_after sets) ∧ registry_distinct (registry_after sets) := by
  have key : ∀ (l : List dfa_state) (r : dfa_state_registry),
      registry_ok r → registry_distinct r →
      registry_ok (l.foldl (fun r s => (add_dfa_state_to_registry r s).1) r) ∧
        registry_distinct (l.foldl (fun r s => (add_dfa_state_to_registry r s).1) r) := by
    intro l
    induction l with
    | nil => intro r h1 h2; exact ⟨h1, h2⟩
    | cons s l ih =>
      intro r h1 h2
      obtain ⟨a1, a2⟩ := add_preserves r s h1 h2
      exact ih _ a1 a2
  refine key sets _ registry_ok_init ?_
  intro i j hi
  simp [init_dfa_state_registry] at hi

theorem discovered_sets_differ (nfa : finite_automata) (r : dfa_state_registry)
    (hr : discovered nfa r) (a b : Nat) (ha : a < r.size) (hb : b < r.size) (hab : a ≠ b) :
    compare_dfa_states (get_dfa_state_from_registry_by_id r a)
        (get_dfa_state_from_registry_by_id r b) = false ∧
      members (get_dfa_state_from_registry_by_id r a)
        ≠ members (get_dfa_state_from_registry_by_id r b) := by
  have hc := hr.1.2.1 a b ha hb hab
  refine ⟨hc, fun he => ?_⟩
  have heq := state_set_eq_of_members nfa.state_number _ _ (hr.1.2.2.1 a ha) (hr.1.2.2.1 b hb) he
  rw [(compare_iff_eq nfa.state_number _ _ (hr.1.2.2.1 a ha) (hr.1.2.2.1 b hb)).2 heq] at hc
  exact Bool.noConfusion hc

/-- C7: after any sequence of `add_dfa_state_to_registry` calls that starts from
`init_dfa_state_registry`, no two different indices below `size` hold sets that
`compare_dfa_states` finds equal; and in the registry at the end of the
discovery for a well-formed NFA, whose indices are the DFA state ids, two
different ids hold sets that differ in their members. -/
theorem c7_registry_entries_distinct (sets : List dfa_state) (i j : Nat)
    (nfa : finite_automata) (fuel : Nat)
    (hi : i < (registry_after sets).size) (hj : j < (registry_after sets).size) (hij : i ≠ j)
    (h : nfa_wf nfa) (hf : 2 ^ nfa.state_number ≤ fuel) :
    compare_dfa_states (get_dfa_state_from_registry_by_id (registry_after sets) i)
        (get_dfa_state_from_registry_by_id (registry_after sets) j) = false ∧
      ∃ r, discover fuel nfa = some r ∧
        ∀ a b, a < r.size → b < r.size → a ≠ b →
          compare_dfa_states (get_dfa_state_from_registry_by_id r a)
              (get_dfa_state_from_registry_by_id r b) = false ∧
            members (get_dfa_state_from_registry_by_id r a)
              ≠ members (get_dfa_state_from_registry_by_id r b) := by
  refine ⟨(registry_after_inv sets).2 i j hi hj hij, ?_⟩
  obtain ⟨r, hd, hr⟩ := discover_spec nfa h fuel hf
  exact ⟨r, hd, fun a b ha hb hab => discovered_sets_differ nfa r hr a b ha hb hab⟩

theorem c7_registry_entries_distinct_witness :
    (registry_after sets_with_repetition).size = 2 ∧
    compare_dfa_states
        (get_dfa_state_from_registry_by_id (registry_after sets_with_repetition) 0)
        (get_dfa_state_from_registry_by_id (registry_after sets_with_repetition) 1) = false ∧
      ∃ r, discover 4 nfa_scenario = some r ∧
        ∀ a b, a < r.size → b < r.size → a ≠ b →
          compare_dfa_states (get_dfa_state_from_registry_by_id r a)
              (get_dfa_state_from_registry_by_id r b) = false ∧
            members (get_dfa_state_from_registry_by_id r a)
              ≠ members (get_dfa_state_from_registry_by_id r b) :=
  ⟨by decide,
    c7_registry_entries_distinct sets_with_repetition 0 1 nfa_scenario 4
      (by decide) (by decide) (by decide) (by decide) (by decide)⟩

/-! ## The scenario (C9) and the order of the transition lists (C10) -/

theorem discovery_loop_mono (nfa : finite_automata) (d : Nat) :
    ∀ fuel m r r2, discovery_loop nfa fuel m r = some r2 →
      discovery_loop nfa (fuel + d) m r = some r2 := by
  intro fuel
  induction fuel with
  | zero => intro m r r2 h; simp [discovery_loop] at h
  | succ fuel ih =>
    intro m r r2 h
    rw [show fuel + 1 + d = (fuel + d) + 1 by omega]
    simp only [discovery_loop] at h ⊢
    split
    · next hlt => rw [if_pos hlt] at h; exact ih _ _ _ h
    · next hlt => rw [if_neg hlt] at h; exact h

theorem convert_mono (nfa : finite_automata) (fuel fuel2 : Nat) (dfa : finite_automata)
    (hle : fuel ≤ fuel2) (h : convert_nfa_to_dfa fuel nfa = some dfa) :
    convert_nfa_to_dfa fuel2 nfa = some dfa := by
  unfold convert_nfa_to_dfa discover at h ⊢
  cases hd : discovery_loop nfa fuel 0 (initial_registry nfa).1 with
  | none => rw [hd] at h; simp at h
  | some r =>
    have := discovery_loop_mono nfa (fuel2 - fuel) fuel 0 _ r hd
    rw [show fuel + (fuel2 - fuel) = fuel2 by omega] at this
    rw [hd] at h
    rw [this]; exact h

/-- C9: for the NFA with alphabet size 1, two states, initial state 0, final
state 1 and the transitions `0 -a-> 0` and `0 -a-> 1` (added in either order),
the conversion returns the DFA with alphabet size 1, two states, initial state
0, state 1 the only final state, and exactly the transitions `0 -a-> 1` and
`1 -a-> 1`. -/
theorem c9_scenario (fuel : Nat) (hf : 3 ≤ fuel) :
    convert_nfa_to_dfa fuel nfa_scenario = some dfa_scenario ∧
      convert_nfa_to_dfa fuel nfa_scenario_swapped = some dfa_scenario ∧
      dfa_scenario.alphabet_size = 1 ∧ dfa_scenario.state_number = 2 ∧
      dfa_scenario.initial_state = 0 ∧
      (∀ q, is_final_state dfa_scenario q = true ↔ q = 1) ∧
      transitions_of dfa_scenario 0 = [⟨97, 1⟩] ∧ transitions_of dfa_scenario 1 = [⟨97, 1⟩] := by
  refine ⟨convert_mono nfa_scenario 3 fuel _ hf (by decide),
    convert_mono nfa_scenario_swapped 3 fuel _ hf (by decide), rfl, rfl, rfl, ?_, rfl, rfl⟩
  intro q
  match q with
  | 0 => decide
  | 1 => decide
  | q + 2 => simp [is_final_state, dfa_scenario, zero_state]

theorem c9_scenario_witness :
    convert_nfa_to_dfa 4 nfa_scenario = some dfa_scenario ∧
      convert_nfa_to_dfa 4 nfa_scenario_swapped = some dfa_scenario ∧
      dfa_scenario.alphabet_size = 1 ∧ dfa_scenario.state_number = 2 ∧
      dfa_scenario.initial_state = 0 ∧
      (∀ q, is_final_state dfa_scenario q = true ↔ q = 1) ∧
      transitions_of dfa_scenario 0 = [⟨97, 1⟩] ∧ transitions_of dfa_scenario 1 = [⟨97, 1⟩] :=
  c9_scenario 4 (by decide)

theorem list_eq_of_getD_eq {α : Type} (d : α) (l1 l2 : List α) (k : Nat) (h1 : l1.length = k)
    (h2 : l2.length = k) (h : ∀ i, i < k → l1.getD i d = l2.getD i d) : l1 = l2 := by
  apply List.ext_getElem (by rw [h1, h2])
  intro i hi1 hi2
  have := h i (by omega)
  simpa [List.getD_eq_getElem?_getD, List.getElem?_eq_getElem hi1,
    List.getElem?_eq_getElem hi2] using this

theorem fill_transition_to_congr (a b : finite_automata) (ha : nfa_wf a) (hb : nfa_wf b)
    (hab : same_up_to_order a b) (S : dfa_state) :
    fill_transition_to a S = fill_transition_to b S := by
  obtain ⟨e1, e2, _, e4⟩ := hab
  obtain ⟨a1, a2⟩ := fill_transition_to_spec a ha S
  obtain ⟨b1, b2⟩ := fill_transition_to_spec b hb S
  rw [← e1, ← e2] at b1
  apply list_eq_of_getD_eq zero_dfa_state _ _ a.alphabet_size a1.1 b1.1
  intro i hi
  apply state_set_ext a.state_number _ _ (a1.2 i hi) (b1.2 i hi)
  intro q _
  rw [Bool.eq_iff_iff, a2 i q hi, b2 i q (by rw [← e1]; exact hi)]
  unfold in_move
  constructor
  · rintro ⟨p, hp, hc, t, ht, hr⟩
    exact ⟨p, by rw [← e2]; exact hp, hc, t, ((e4 p hp).2.mem_iff).1 ht, hr⟩
  · rintro ⟨p, hp, hc, t, ht, hr⟩
    rw [← e2] at hp
    exact ⟨p, hp, hc, t, ((e4 p hp).2.mem_iff).2 ht, hr⟩

theorem discovery_loop_congr (a b : finite_automata) (ha : nfa_wf a) (hb : nfa_wf b)
    (hab : same_up_to_order a b) :
    ∀ fuel m r, discovery_inv a m r →
      discovery_loop a fuel m r = discovery_loop b fuel m r := by
  intro fuel
  induction fuel with
  | zero => intro m r _; rfl
  | succ fuel ih =>
    intro m r hinv
    simp only [discovery_loop]
    by_cases hlt : m < get_registry_state_number r
    · rw [if_pos hlt, if_pos hlt, ← fill_transition_to_congr a b ha hb hab]
      have hadd : ∀ tt, add_new_states b tt r = add_new_states a tt r := by
        intro tt; unfold add_new_states; rw [hab.1]
      rw [hadd]
      exact ih _ _ (discovery_body a ha m r hinv hlt).1
    · rw [if_neg hlt, if_neg hlt]

theorem materialize_congr (a b : finite_automata) (ha : nfa_wf a) (hb : nfa_wf b)
    (hab : same_up_to_order a b) (init : Nat) (r : dfa_state_registry) :
    materialize a init r = materialize b init r := by
  obtain ⟨a1, a2, a3, a4, a5⟩ := materialize_spec a init r
  obtain ⟨b1, b2, b3, b4, b5⟩ := materialize_spec b init r
  have hstates : (materialize a init r).states = (materialize b init r).states := by
    apply list_eq_of_getD_eq zero_state _ _ r.size a4 b4
    intro id hid
    rw [a5 id hid, b5 id hid]
    have hfin : has_final_upto a (get_dfa_state_from_registry_by_id r id) a.state_number
        = has_final_upto b (get_dfa_state_from_registry_by_id r id) b.state_number := by
      rw [← hab.2.1]
      unfold has_final_upto
      rw [Bool.eq_iff_iff, List.any_eq_true, List.any_eq_true]
      constructor
      · rintro ⟨q, hq, hx⟩
        refine ⟨q, hq, ?_⟩
        have := (hab.2.2.2 q (List.mem_range.1 hq)).1
        unfold is_final_state at this
        rw [← this]; exact hx
      · rintro ⟨q, hq, hx⟩
        refine ⟨q, hq, ?_⟩
        have := (hab.2.2.2 q (List.mem_range.1 hq)).1
        unfold is_final_state at this
        rw [this]; exact hx
    have htr : output_transitions a r id a.alphabet_size
        = output_transitions b r id b.alphabet_size := by
      rw [← hab.1]
      unfold output_transitions target target_set move_set
      simp only [fill_transition_to_congr a b ha hb hab]
    simp only [output_state, hfin, htr]
  have e1 : (materialize a init r).alphabet_size = (materialize b init r).alphabet_size := by
    rw [a1, b1, hab.1]
  have e2 : (materialize a init r).state_number = (materialize b init r).state_number := by
    rw [a2, b2]
  have e3 : (materialize a init r).initial_state = (materialize b init r).initial_state := by
    rw [a3, b3]
  generalize materialize a init r = x at *
  generalize materialize b init r = y at *
  cases x; cases y
  simp only [finite_automata.mk.injEq]
  exact ⟨e1, e2, e3, hstates⟩

/-- C10: two well-formed NFAs with the same alphabet size, state number,
initial state and final flags whose states have the same transitions up to the
order of the lists are converted to the same DFA. -/
theorem c10_insertion_order_irrelevant (a b : finite_automata) (fuel : Nat) (ha : nfa_wf a)
    (hb : nfa_wf b) (hab : same_up_to_order a b) (hf : 2 ^ a.state_number ≤ fuel) :
    ∃ dfa, convert_nfa_to_dfa fuel a = some dfa ∧ convert_nfa_to_dfa fuel b = some dfa := by
  obtain ⟨r, hd, _, hc⟩ := convert_spec a ha fuel hf
  refine ⟨_, hc, ?_⟩
  have hinit : initial_registry b = initial_registry a := by
    unfold initial_registry; rw [hab.2.1, hab.2.2.1]
  have hdb : discover fuel b = some r := by
    unfold discover at hd ⊢
    rw [hinit, ← discovery_loop_congr a b ha hb hab fuel 0 _ (initial_registry_spec a ha).1]
    exact hd
  unfold convert_nfa_to_dfa
  rw [hdb, hinit, (initial_registry_spec a ha).2.2]
  show some (materialize b 0 r) = some (materialize a 0 r)
  rw [materialize_congr a b ha hb hab]

theorem c10_insertion_order_irrelevant_witness :
    nfa_scenario ≠ nfa_scenario_swapped ∧
      ∃ dfa, convert_nfa_to_dfa 4 nfa_scenario = some dfa ∧
        convert_nfa_to_dfa 4 nfa_scenario_swapped = some dfa :=
  ⟨by decide,
    c10_insertion_order_irrelevant nfa_scenario nfa_scenario_swapped 4 (by decide) (by decide)
      (by decide) (by decide)⟩

/-! ## Deterministic input (C8) -/

theorem find_of_filter_singleton {α : Type} (p : α → Bool) (t : α) :
    ∀ l : List α, l.filter p = [t] → l.find? p = some t := by
  intro l
  induction l with
  | nil => intro h; simp at h
  | cons x l ih =>
    intro h
    rw [List.filter_cons] at h
    rw [List.find?_cons]
    cases hp : p x
    · rw [hp] at h; simp only [Bool.false_eq_true, if_false] at h; exact ih h
    · rw [hp] at h; simp only [if_true] at h
      rw [(List.cons.inj h).1]

theorem deterministic_step (fa : finite_automata) (h : nfa_wf fa) (hdet : deterministic_total fa)
    (p i : Nat) (hp : p < fa.state_number) (hi : i < fa.alphabet_size) :
    ∃ q, q < fa.state_number ∧ dfa_step fa p (CHAR_a + i) = some q ∧
      move fa {p} (CHAR_a + i) = {q} := by
  have hc := hdet p hp i hi
  rw [List.countP_eq_length_filter] at hc
  obtain ⟨t, ht⟩ := List.length_eq_one.1 hc
  have htm : t ∈ (transitions_of fa p).filter (fun t => t.symbol == CHAR_a + i) := by
    rw [ht]; exact List.mem_singleton.2 rfl
  obtain ⟨htm1, htm2⟩ := List.mem_filter.1 htm
  refine ⟨t.to_state, (nfa_wf_transition fa h p t htm1).2.2, ?_, ?_⟩
  · unfold dfa_step
    rw [find_of_filter_singleton _ t _ ht]; rfl
  · ext q
    simp only [move, Set.mem_setOf_eq, Set.mem_singleton_iff, exists_eq_left]
    constructor
    · rintro ⟨t2, ht2, hs, hq⟩
      have : t2 ∈ (transitions_of fa p).filter (fun t => t.symbol == CHAR_a + i) :=
        List.mem_filter.2 ⟨ht2, by simp [hs]⟩
      rw [ht, List.mem_singleton] at this
      rw [← hq, this]
    · intro hq
      exact ⟨t, htm1, by simpa using htm2, hq.symm⟩

theorem deterministic_run (fa : finite_automata) (h : nfa_wf fa) (hdet : deterministic_total fa)
    (w : List Nat) (hw : word_ok fa w) :
    ∀ p, p < fa.state_number →
      ∃ q, q < fa.state_number ∧ dfa_run fa p w = some q ∧ move_word fa {p} w = {q} := by
  induction w with
  | nil => intro p hp; exact ⟨p, hp, rfl, rfl⟩
  | cons c w ih =>
    intro p hp
    obtain ⟨hc1, hc2⟩ := hw c (List.mem_cons_self _ _)
    have hci : c = CHAR_a + (c - CHAR_a) := by omega
    obtain ⟨q1, hq1, hs, hm⟩ := deterministic_step fa h hdet p (c - CHAR_a) hp (by omega)
    rw [← hci] at hs hm
    obtain ⟨q, hq, hr, hmw⟩ := ih (fun x hx => hw x (List.mem_cons_of_mem _ hx)) q1 hq1
    refine ⟨q, hq, ?_, ?_⟩
    · simp only [dfa_run, hs]; exact hr
    · rw [move_word_cons, hm]; exact hmw

theorem discovered_singletons (nfa : finite_automata) (h : nfa_wf nfa)
    (hdet : deterministic_total nfa) (r : dfa_state_registry) (hr : discovered nfa r) (id : Nat) :
    ∃ q, id < r.size → q < nfa.state_number ∧ reachable nfa q ∧
      members (get_dfa_state_from_registry_by_id r id) = {q} := by
  by_cases hid : id < r.size
  · obtain ⟨w, hw, hm⟩ := hr.2.2.2.1 id hid
    obtain ⟨q, hq, hrun, hmw⟩ := deterministic_run nfa h hdet w hw nfa.initial_state h.2.1
    exact ⟨q, fun _ => ⟨hq, ⟨w, hw, hrun⟩, by rw [hm, hmw]⟩⟩
  · exact ⟨0, fun hlt => absurd hlt hid⟩

theorem isomorphic_of_discovered (nfa : finite_automata) (h : nfa_wf nfa)
    (hdet : deterministic_total nfa) (r : dfa_state_registry) (hr : discovered nfa r) :
    fa_isomorphic_on nfa (reachable nfa) (materialize nfa 0 r) ∧
      (materialize nfa 0 r).state_number ≤ nfa.state_number := by
  choose g hg using discovered_singletons nfa h hdet r hr
  obtain ⟨m1, m2, m3, _, _⟩ := materialize_spec nfa 0 r
  have h0 : members (get_dfa_state_from_registry_by_id r 0) = {nfa.initial_state} := by
    rw [hr.2.2.1, members_initial_set nfa h]
  have hinj : ∀ id id2, id < r.size → id2 < r.size → g id = g id2 → id = id2 := by
    intro id id2 hid hid2 he
    by_contra hne
    apply (discovered_sets_differ nfa r hr id id2 hid hid2 hne).2
    rw [(hg id hid).2.2, (hg id2 hid2).2.2, he]
  have hsingle : ∀ (a b : Nat), ({a} : Set Nat) = {b} → a = b := by
    intro a b hab
    have : a ∈ ({b} : Set Nat) := by rw [← hab]; rfl
    exact this
  refine ⟨⟨m1.symm, g, ?_, ?_, ?_, ?_, ?_, ?_⟩, ?_⟩
  · intro id hid
    rw [m2] at hid
    exact ⟨(hg id hid).1, (hg id hid).2.1⟩
  · intro id id2 hid hid2
    rw [m2] at hid hid2
    exact hinj id id2 hid hid2
  · rintro q hq ⟨w, hw, hrun⟩
    obtain ⟨q2, _, hrun2, hmw⟩ := deterministic_run nfa h hdet w hw nfa.initial_state h.2.1
    rw [hrun] at hrun2
    have hq2 : q2 = q := (Option.some.inj hrun2).symm
    subst hq2
    have hne : (move_word nfa (members (get_dfa_state_from_registry_by_id r 0)) w).Nonempty := by
      rw [h0, hmw]; exact ⟨q2, rfl⟩
    obtain ⟨j, hj, _, hm⟩ := dfa_run_simulates nfa h 0 r hr w 0 hr.2.1 hw hne
    refine ⟨j, by rw [m2]; exact hj, ?_⟩
    rw [h0, hmw, (hg j hj).2.2] at hm
    exact hsingle _ _ hm
  · rw [m3]
    have := (hg 0 hr.2.1).2.2
    rw [h0] at this
    exact (hsingle _ _ this).symm
  · intro id hid
    rw [m2] at hid
    rw [Bool.eq_iff_iff, is_final_materialize nfa 0 r hr id hid, (hg id hid).2.2]
    simp
  · intro id i hid hi
    rw [m2] at hid
    rw [m1] at hi
    obtain ⟨q2, _, hs, hm⟩ := deterministic_step nfa h hdet (g id) i (hg id hid).1 hi
    have hne : (move nfa (members (get_dfa_state_from_registry_by_id r id))
        (CHAR_a + i)).Nonempty := by
      rw [(hg id hid).2.2, hm]; exact ⟨q2, rfl⟩
    obtain ⟨_, t2, t3⟩ := target_of_nonempty nfa r hr id i hid hi
      ((move_set_nonempty_iff nfa h _ _ hi).2 hne)
    refine ⟨target nfa r id i, by rw [m2]; exact t2, dfa_step_materialize nfa 0 r id i hid hi, ?_⟩
    have hmem : members (get_dfa_state_from_registry_by_id r (target nfa r id i)) = {q2} := by
      rw [t3, members_move_set nfa h _ _ hi, (hg id hid).2.2, hm]
    rw [(hg _ t2).2.2] at hmem
    rw [hs, hsingle _ _ hmem]
  · rw [m2]
    have hcard := Finset.card_le_card_of_injOn (s := Finset.range r.size)
      (t := Finset.range nfa.state_number) g
      (fun a ha => Finset.mem_range.2 (hg a (Finset.mem_range.1 ha)).1)
      (fun a ha b hb hab => hinj a b (Finset.mem_range.1 ha) (Finset.mem_range.1 hb) hab)
    simpa using hcard

/-- C8 (as stated, refuted): the deterministic, total automaton with the
transitions `0 -a-> 0` and `1 -a-> 1` and initial state 0 is converted to an
automaton with one state, so no renumbering maps its two states one-to-one to
the states of the output. -/
theorem c8_isomorphism_fails :
    nfa_wf dfa_with_unreachable ∧ deterministic_total dfa_with_unreachable ∧
      convert_nfa_to_dfa 4 dfa_with_unreachable = some dfa_without_unreachable ∧
      ¬ fa_isomorphic dfa_with_unreachable dfa_without_unreachable := by
  refine ⟨by decide, by decide, by decide, ?_⟩
  rintro ⟨_, g, _, _, honto, _⟩
  obtain ⟨a, ha, ea⟩ := honto 0 (by decide) trivial
  obtain ⟨b, hb, eb⟩ := honto 1 (by decide) trivial
  have ha2 : a < 1 := ha
  have hb2 : b < 1 := hb
  have hab : a = b := by omega
  rw [hab, eb] at ea
  exact absurd ea (by decide)

/-- C8 (amended): for a well-formed automaton that is already deterministic and
total, the conversion returns an automaton that is a renumbering of the states
of the input reachable from its initial state (a one-to-one map from the output
state ids onto those states that maps initial state to initial state and
preserves the final flags and the transition function), and the output has at
most as many states as the input. -/
theorem c8_deterministic_input_reachable_part (nfa : finite_automata) (fuel : Nat)
    (h : nfa_wf nfa) (hdet : deterministic_total nfa) (hf : 2 ^ nfa.state_number ≤ fuel) :
    ∃ dfa, convert_nfa_to_dfa fuel nfa = some dfa ∧
      fa_isomorphic_on nfa (reachable nfa) dfa ∧ dfa.state_number ≤ nfa.state_number := by
  obtain ⟨r, _, hr, hc⟩ := convert_spec nfa h fuel hf
  obtain ⟨i1, i2⟩ := isomorphic_of_discovered nfa h hdet r hr
  exact ⟨_, hc, i1, i2⟩

theorem c8_deterministic_input_reachable_part_witness :
    ∃ dfa, convert_nfa_to_dfa 4 dfa_with_unreachable = some dfa ∧
      fa_isomorphic_on dfa_with_unreachable (reachable dfa_with_unreachable) dfa ∧
      dfa.state_number ≤ dfa_with_unreachable.state_number :=
  c8_deterministic_input_reachable_part dfa_with_unreachable 4 (by decide) (by decide)
    (by decide)


/-! ## Initial state of the output (C11) -/

/-- C11: for a well-formed NFA the conversion returns a DFA whose
`initial_state` is 0 (the id the first `add_dfa_state_to_registry` call
returned) and whose `alphabet_size` is that of the NFA, and the registry set
with id 0 is the singleton of the initial state of the NFA. -/
theorem c11_initial_state_and_alphabet (nfa : finite_automata) (fuel : Nat) (h : nfa_wf nfa)
    (hf : 2 ^ nfa.state_number ≤ fuel) :
    ∃ r dfa, discover fuel nfa = some r ∧ convert_nfa_to_dfa fuel nfa = some dfa ∧
      (initial_registry nfa).2 = 0 ∧ dfa.initial_state = 0 ∧
      dfa.alphabet_size = nfa.alphabet_size ∧ 0 < r.size ∧
      members (get_dfa_state_from_registry_by_id r 0) = {nfa.initial_state} := by
  obtain ⟨r, hd, hr, hc⟩ := convert_spec nfa h fuel hf
  obtain ⟨m1, _, m3, _, _⟩ := materialize_spec nfa 0 r
  refine ⟨r, _, hd, hc, (initial_registry_spec nfa h).2.2, m3, m1, hr.2.1, ?_⟩
  rw [hr.2.2.1, members_initial_set nfa h]

theorem c11_initial_state_and_alphabet_witness :
    ∃ r dfa, discover 4 nfa_scenario = some r ∧ convert_nfa_to_dfa 4 nfa_scenario = some dfa ∧
      (initial_registry nfa_scenario).2 = 0 ∧ dfa.initial_state = 0 ∧
      dfa.alphabet_size = nfa_scenario.alphabet_size ∧ 0 < r.size ∧
      members (get_dfa_state_from_registry_by_id r 0) = {nfa_scenario.initial_state} :=
  c11_initial_state_and_alphabet nfa_scenario 4 (by decide) (by decide)

/-! ## Lookup-or-insert and stable ids (C13, C14) -/

theorem compare_refl (s : dfa_state) : compare_dfa_states s s = true := by
  rw [compare_iff]; exact ⟨rfl, fun _ _ => rfl⟩

/-- C13: `add_dfa_state_to_registry` looks up or inserts.  If some index below
`size` holds a set that compares equal to `s`, the call returns the least such
index and leaves the registry as it was; otherwise it returns the old `size`,
`size` grows by one, and the new last entry is the copy of `s`, which compares
equal to `s`. -/
theorem c13_lookup_or_insert (r : dfa_state_registry) (s : dfa_state) (hr : registry_ok r) :
    ((∃ i, i < r.size ∧ compare_dfa_states s (get_dfa_state_from_registry_by_id r i) = true) →
      (add_dfa_state_to_registry r s).2 < r.size ∧
      compare_dfa_states s
        (get_dfa_state_from_registry_by_id r (add_dfa_state_to_registry r s).2) = true ∧
      (∀ j, j < (add_dfa_state_to_registry r s).2 →
        compare_dfa_states s (get_dfa_state_from_registry_by_id r j) = false) ∧
      (add_dfa_state_to_registry r s).1 = r) ∧
    ((∀ i, i < r.size → compare_dfa_states s (get_dfa_state_from_registry_by_id r i) = false) →
      (add_dfa_state_to_registry r s).2 = r.size ∧
      (add_dfa_state_to_registry r s).1.size = r.size + 1 ∧
      get_dfa_state_from_registry_by_id (add_dfa_state_to_registry r s).1 r.size
        = copy_dfa_state s ∧
      compare_dfa_states s
        (get_dfa_state_from_registry_by_id (add_dfa_state_to_registry r s).1 r.size) = true) := by
  constructor
  · rintro ⟨i, hi, hc⟩
    cases hscan : registry_scan r s with
    | none =>
      rw [registry_scan_none] at hscan
      rw [hscan i hi] at hc; exact Bool.noConfusion hc
    | some k =>
      rw [add_found r s k hscan]
      rw [registry_scan_some] at hscan
      exact ⟨hscan.2.1, hscan.1, hscan.2.2, rfl⟩
  · intro hnone
    have hscan := (registry_scan_none r s).2 hnone
    obtain ⟨_, a2, a3, a4, _⟩ := add_fresh r s hr hscan
    refine ⟨a3, a2, a4, ?_⟩
    rw [a4, compare_copy_right]; exact compare_refl s

theorem c13_lookup_or_insert_witness :
    registry_ok registry_full ∧
    ((add_dfa_state_to_registry registry_full (create_dfa_state 2)).2 = 0 ∧
      (add_dfa_state_to_registry registry_full (create_dfa_state 2)).1 = registry_full) ∧
    ((add_dfa_state_to_registry registry_full set_one_of_two).2 = 1 ∧
      (add_dfa_state_to_registry registry_full set_one_of_two).1.size = 2 ∧
      compare_dfa_states set_one_of_two
        (get_dfa_state_from_registry_by_id
          (add_dfa_state_to_registry registry_full set_one_of_two).1 1) = true) := by
  obtain ⟨f1, _⟩ := c13_lookup_or_insert registry_full (create_dfa_state 2) (by decide)
  obtain ⟨_, n2⟩ := c13_lookup_or_insert registry_full set_one_of_two (by decide)
  obtain ⟨f2, _, _, f3⟩ := f1 ⟨0, by decide, by decide⟩
  obtain ⟨n3, n4, _, n5⟩ := n2 (by decide)
  have f4 : (add_dfa_state_to_registry registry_full (create_dfa_state 2)).2 = 0 := by
    have : registry_full.size = 1 := by decide
    omega
  exact ⟨by decide, ⟨f4, f3⟩, ⟨n3, n4, n5⟩⟩

/-- C14: ids are stable.  For a registry `r`, an id below its `size` and any set
`s`, after `add_dfa_state_to_registry r s` the registry holds at `id` the set it
held before, with the same members, also when the call grows the array; `size`
does not decrease. -/
theorem c14_ids_stable (r : dfa_state_registry) (s : dfa_state) (id : Nat)
    (hr : registry_ok r) (hid : id < r.size) :
    get_dfa_state_from_registry_by_id (add_dfa_state_to_registry r s).1 id
        = get_dfa_state_from_registry_by_id r id ∧
      (∀ q, dfa_state_contains_nfa_state
          (get_dfa_state_from_registry_by_id (add_dfa_state_to_registry r s).1 id) q
        = dfa_state_contains_nfa_state (get_dfa_state_from_registry_by_id r id) q) ∧
      r.size ≤ (add_dfa_state_to_registry r s).1.size := by
  have hget : get_dfa_state_from_registry_by_id (add_dfa_state_to_registry r s).1 id
      = get_dfa_state_from_registry_by_id r id := by
    cases hscan : registry_scan r s with
    | some k => rw [add_found r s k hscan]
    | none => exact (add_fresh r s hr hscan).2.2.2.2 id hid
  exact ⟨hget, fun q => by rw [hget], add_size_mono r s hr⟩

theorem c14_ids_stable_witness :
    registry_full.size ≥ registry_full.capacity ∧
    registry_scan registry_full set_one_of_two = none ∧
    (add_dfa_state_to_registry registry_full set_one_of_two).1.capacity
      = registry_full.capacity * 2 ∧
    get_dfa_state_from_registry_by_id
        (add_dfa_state_to_registry registry_full set_one_of_two).1 0
      = get_dfa_state_from_registry_by_id registry_full 0 ∧
    (∀ q, dfa_state_contains_nfa_state
        (get_dfa_state_from_registry_by_id
          (add_dfa_state_to_registry registry_full set_one_of_two).1 0) q
      = dfa_state_contains_nfa_state (get_dfa_state_from_registry_by_id registry_full 0) q) ∧
    registry_full.size ≤ (add_dfa_state_to_registry registry_full set_one_of_two).1.size :=
  ⟨by decide, by decide, by decide,
    c14_ids_stable registry_full set_one_of_two 0 (by decide) (by decide)⟩

/-! ## State sets: equality, insertion, emptiness (C15 - C17) -/

theorem build_wf (n : Nat) (l : List Nat) (hl : ∀ i ∈ l, i < n) :
    state_set_wf n (build_dfa_state n l) := by
  have key : ∀ (l : List Nat) (s : dfa_state), (∀ i ∈ l, i < n) → state_set_wf n s →
      state_set_wf n (l.foldl add_nfa_state_to_dfa_state s) := by
    intro l
    induction l with
    | nil => intro s _ hs; exact hs
    | cons a l ih =>
      intro s hl hs
      exact ih _ (fun i hi => hl i (List.mem_cons_of_mem _ hi))
        (state_set_wf_add n s a hs (hl a (List.mem_cons_self _ _)))
  exact key l _ hl (state_set_wf_create n)

/-- C15: for two state sets built by `create_dfa_state` and
`add_nfa_state_to_dfa_state` calls with states below the capacity,
`compare_dfa_states` returns true exactly when the capacities are equal and
every state below the capacity is a member of both or of neither; sets of
different capacity never compare equal. -/
theorem c15_compare_is_set_equality (n m : Nat) (la lb : List Nat)
    (ha : ∀ i ∈ la, i < n) (hb : ∀ i ∈ lb, i < m) :
    (compare_dfa_states (build_dfa_state n la) (build_dfa_state m lb) = true ↔
      n = m ∧ ∀ i, i < n →
        dfa_state_contains_nfa_state (build_dfa_state n la) i
          = dfa_state_contains_nfa_state (build_dfa_state m lb) i) ∧
    (n ≠ m → compare_dfa_states (build_dfa_state n la) (build_dfa_state m lb) = false) := by
  have wa := build_wf n la ha
  have wb := build_wf m lb hb
  have hiff : compare_dfa_states (build_dfa_state n la) (build_dfa_state m lb) = true ↔
      n = m ∧ ∀ i, i < n →
        dfa_state_contains_nfa_state (build_dfa_state n la) i
          = dfa_state_contains_nfa_state (build_dfa_state m lb) i := by
    constructor
    · intro hc
      have hnm : n = m := by
        have := ((compare_iff _ _).1 hc).1
        rw [wa.1, wb.1] at this; exact this
      subst hnm
      have heq := (compare_iff_eq n _ _ wa wb).1 hc
      exact ⟨rfl, fun i _ => by rw [heq]⟩
    · rintro ⟨hnm, hall⟩
      subst hnm
      exact (compare_iff_eq n _ _ wa wb).2 (state_set_ext n _ _ wa wb hall)
  refine ⟨hiff, fun hne => ?_⟩
  rw [Bool.eq_false_iff]
  intro hc
  exact hne (hiff.1 hc).1

theorem c15_compare_is_set_equality_witness :
    (compare_dfa_states (build_dfa_state 70 [65, 3]) (build_dfa_state 70 [3, 65, 3]) = true ↔
      70 = 70 ∧ ∀ i, i < 70 →
        dfa_state_contains_nfa_state (build_dfa_state 70 [65, 3]) i
          = dfa_state_contains_nfa_state (build_dfa_state 70 [3, 65, 3]) i) ∧
    (70 ≠ 70 → compare_dfa_states (build_dfa_state 70 [65, 3]) (build_dfa_state 70 [3, 65, 3])
      = false) :=
  c15_compare_is_set_equality 70 70 [65, 3] [3, 65, 3] (by decide) (by decide)

theorem add_add_self (s : dfa_state) (i : Nat) :
    add_nfa_state_to_dfa_state (add_nfa_state_to_dfa_state s i) i
      = add_nfa_state_to_dfa_state s i := by
  unfold add_nfa_state_to_dfa_state
  simp only [List.set_set]
  by_cases hi : i / BITSET_ELEMENT_SIZE < s.bitset.length
  · rw [getD_set_eq_ite _ _ _ _ _ hi, if_pos rfl, Nat.or_assoc, Nat.or_self]
  · have hset : ∀ v, s.bitset.set (i / BITSET_ELEMENT_SIZE) v = s.bitset := fun v =>
      List.set_eq_of_length_le (by omega)
    simp only [hset]

/-- C16: for a state set of capacity `n` with an allocated bitset, a state
`i < n` (bit position 63 of a word included) and any state `j`, after
`add_nfa_state_to_dfa_state s i` the state `j` is a member exactly when `j = i`
or `j` was a member before, and adding `i` once more changes nothing. -/
theorem c16_add_inserts_and_is_idempotent (s : dfa_state) (i j : Nat)
    (hs : bitset_allocated s) (hi : i < s.nfa_state_number) :
    (dfa_state_contains_nfa_state (add_nfa_state_to_dfa_state s i) j = true ↔
      j = i ∨ dfa_state_contains_nfa_state s j = true) ∧
    add_nfa_state_to_dfa_state (add_nfa_state_to_dfa_state s i) i
      = add_nfa_state_to_dfa_state s i := by
  refine ⟨?_, add_add_self s i⟩
  have hlen : i / 64 < s.bitset.length := by
    rw [hs]; simp only [BITSET_ELEMENT_SIZE]; omega
  rw [contains_add s i j hlen]
  simp only [Bool.or_eq_true, decide_eq_true_eq]
  exact Or.comm

theorem c16_add_inserts_and_is_idempotent_witness :
    (dfa_state_contains_nfa_state
        (add_nfa_state_to_dfa_state (build_dfa_state 130 [0, 64]) 127) 127 = true ↔
      127 = 127 ∨ dfa_state_contains_nfa_state (build_dfa_state 130 [0, 64]) 127 = true) ∧
    add_nfa_state_to_dfa_state
        (add_nfa_state_to_dfa_state (build_dfa_state 130 [0, 64]) 127) 127
      = add_nfa_state_to_dfa_state (build_dfa_state 130 [0, 64]) 127 :=
  c16_add_inserts_and_is_idempotent (build_dfa_state 130 [0, 64]) 127 127 (by decide)
    (by decide)

/-- C17: `create_dfa_state n` is empty: no state below `n` is a member and
`is_dfa_state_empty` returns true; and for a set built from it by
`add_nfa_state_to_dfa_state` calls with states below `n`, `is_dfa_state_empty`
returns true exactly when no state below `n` is a member. -/
theorem c17_create_is_empty_and_is_empty_iff (n : Nat) (l : List Nat) (hl : ∀ i ∈ l, i < n) :
    (∀ i, i < n → dfa_state_contains_nfa_state (create_dfa_state n) i = false) ∧
    is_dfa_state_empty (create_dfa_state n) = true ∧
    (is_dfa_state_empty (build_dfa_state n l) = true ↔
      ∀ i, i < n → dfa_state_contains_nfa_state (build_dfa_state n l) i = false) :=
  ⟨fun i _ => contains_create n i,
    (is_empty_iff_all n _ (state_set_wf_create n)).2 (contains_create n),
    is_empty_iff n _ (build_wf n l hl)⟩

theorem c17_create_is_empty_and_is_empty_iff_witness :
    is_dfa_state_empty (build_dfa_state 70 [69]) = false ∧
    (∀ i, i < 70 → dfa_state_contains_nfa_state (create_dfa_state 70) i = false) ∧
    is_dfa_state_empty (create_dfa_state 70) = true ∧
    (is_dfa_state_empty (build_dfa_state 70 [69]) = true ↔
      ∀ i, i < 70 → dfa_state_contains_nfa_state (build_dfa_state 70 [69]) i = false) :=
  ⟨by decide, c17_create_is_empty_and_is_empty_iff 70 [69] (by decide)⟩

/-! ## Language inclusion, total input, size of the output (C18 - C20) -/

theorem run_reaches_set (nfa : finite_automata) (h : nfa_wf nfa) (r : dfa_state_registry)
    (hr : discovered nfa r) (w : List Nat) (hw : word_ok nfa w)
    (hne : (move_word nfa {nfa.initial_state} w).Nonempty) :
    ∃ j, j < r.size ∧
      dfa_run (materialize nfa 0 r) (materialize nfa 0 r).initial_state w = some j ∧
      members (get_dfa_state_from_registry_by_id r j) = move_word nfa {nfa.initial_state} w := by
  have h0 : members (get_dfa_state_from_registry_by_id r 0) = {nfa.initial_state} := by
    rw [hr.2.2.1, members_initial_set nfa h]
  rw [← h0] at hne
  obtain ⟨j, hj, hrun, hm⟩ := dfa_run_simulates nfa h 0 r hr w 0 hr.2.1 hw hne
  rw [h0] at hm
  exact ⟨j, hj, by rw [(materialize_spec nfa 0 r).2.2.1]; exact hrun, hm⟩

/-- C18: for a well-formed NFA and a string `w` over the alphabet, the
conversion returns a DFA that accepts `w` whenever the NFA accepts `w`; and
whenever the set of NFA states reachable on `w` is non-empty, the run of the
DFA over `w` ends in a state whose registry set contains that set. -/
theorem c18_language_inclusion (nfa : finite_automata) (fuel : Nat) (w : List Nat)
    (h : nfa_wf nfa) (hf : 2 ^ nfa.state_number ≤ fuel) (hw : word_ok nfa w) :
    ∃ r dfa, discover fuel nfa = some r ∧ convert_nfa_to_dfa fuel nfa = some dfa ∧
      (nfa_accepts nfa w = true → dfa_accepts dfa w = true) ∧
      ((move_word nfa {nfa.initial_state} w).Nonempty →
        ∃ j, j < dfa.state_number ∧ dfa_run dfa dfa.initial_state w = some j ∧
          move_word nfa {nfa.initial_state} w
            ⊆ members (get_dfa_state_from_registry_by_id r j)) := by
  obtain ⟨r, hd, hr, hc⟩ := convert_spec nfa h fuel hf
  refine ⟨r, _, hd, hc, fun hacc => ?_, fun hne => ?_⟩
  · have hrun : nfa_has_run nfa w = true := by
      rw [nfa_has_run_iff]
      obtain ⟨p, hp, _⟩ := (nfa_accepts_iff nfa w).1 hacc
      exact ⟨p, hp⟩
    exact (accepts_iff_of_run nfa h r hr w hw hrun).1 hacc
  · obtain ⟨j, hj, hrun, hm⟩ := run_reaches_set nfa h r hr w hw hne
    exact ⟨j, by rw [(materialize_spec nfa 0 r).2.1]; exact hj, hrun, by rw [hm]⟩

theorem c18_language_inclusion_witness :
    nfa_accepts nfa_scenario [97, 97] = true ∧
    ∃ r dfa, discover 4 nfa_scenario = some r ∧ convert_nfa_to_dfa 4 nfa_scenario = some dfa ∧
      dfa_accepts dfa [97, 97] = true ∧
      ∃ j, j < dfa.state_number ∧ dfa_run dfa dfa.initial_state [97, 97] = some j ∧
        move_word nfa_scenario {nfa_scenario.initial_state} [97, 97]
          ⊆ members (get_dfa_state_from_registry_by_id r j) := by
  obtain ⟨r, dfa, hd, hc, h1, h2⟩ :=
    c18_language_inclusion nfa_scenario 4 [97, 97] (by decide) (by decide) (by decide)
  have hacc : nfa_accepts nfa_scenario [97, 97] = true := by decide
  have hne : (move_word nfa_scenario {nfa_scenario.initial_state} [97, 97]).Nonempty := by
    obtain ⟨p, hp, _⟩ := (nfa_accepts_iff nfa_scenario [97, 97]).1 hacc
    exact ⟨p, hp⟩
  exact ⟨hacc, r, dfa, hd, hc, h1 hacc, h2 hne⟩

theorem move_subset_states (nfa : finite_automata) (h : nfa_wf nfa) (X : Set Nat) (c : Nat) :
    ∀ q ∈ move nfa X c, q < nfa.state_number := by
  rintro q ⟨p, _, t, ht, _, hq⟩
  rw [← hq]; exact (nfa_wf_transition nfa h p t ht).2.2

theorem total_has_run (nfa : finite_automata) (h : nfa_wf nfa) (htot : nfa_total nfa)
    (w : List Nat) (hw : word_ok nfa w) :
    ∀ X : Set Nat, (∀ q ∈ X, q < nfa.state_number) → X.Nonempty →
      (move_word nfa X w).Nonempty := by
  induction w with
  | nil => intro X _ hne; exact hne
  | cons c w ih =>
    intro X hX hne
    obtain ⟨hc1, hc2⟩ := hw c (List.mem_cons_self _ _)
    rw [move_word_cons]
    apply ih (fun x hx => hw x (List.mem_cons_of_mem _ hx)) _ (move_subset_states nfa h X c)
    obtain ⟨p, hp⟩ := hne
    obtain ⟨t, ht, hs⟩ := htot p (hX p hp) (c - CHAR_a) (by omega)
    exact ⟨t.to_state, p, hp, t, ht, by rw [hs]; omega, rfl⟩

/-- C19: for a well-formed NFA in which every state has a transition for every
symbol, the self-loop branch is never taken (no move set of a registered set is
empty), and for every string `w` over the alphabet the conversion returns a DFA
that accepts `w` exactly when the NFA does and whose run over `w` ends in the
state whose registry set is the set of NFA states reachable on `w`. -/
theorem c19_total_input_same_language (nfa : finite_automata) (fuel : Nat) (w : List Nat)
    (h : nfa_wf nfa) (htot : nfa_total nfa) (hf : 2 ^ nfa.state_number ≤ fuel)
    (hw : word_ok nfa w) :
    ∃ r dfa, discover fuel nfa = some r ∧ convert_nfa_to_dfa fuel nfa = some dfa ∧
      (∀ id i, id < r.size → i < nfa.alphabet_size →
        is_dfa_state_empty (move_set nfa (get_dfa_state_from_registry_by_id r id) i) = false) ∧
      (nfa_accepts nfa w = true ↔ dfa_accepts dfa w = true) ∧
      ∃ j, j < dfa.state_number ∧ dfa_run dfa dfa.initial_state w = some j ∧
        members (get_dfa_state_from_registry_by_id r j)
          = move_word nfa {nfa.initial_state} w := by
  obtain ⟨r, hd, hr, hc⟩ := convert_spec nfa h fuel hf
  have hne : (move_word nfa {nfa.initial_state} w).Nonempty :=
    total_has_run nfa h htot w hw {nfa.initial_state}
      (fun q hq => by rw [Set.mem_singleton_iff.1 hq]; exact h.2.1) ⟨_, rfl⟩
  refine ⟨r, _, hd, hc, fun id i hid hi => ?_,
    accepts_iff_of_run nfa h r hr w hw ((nfa_has_run_iff nfa w).2 hne), ?_⟩
  · rw [move_set_nonempty_iff nfa h _ i hi]
    have hS : (members (get_dfa_state_from_registry_by_id r id)).Nonempty := by
      rw [Set.nonempty_iff_ne_empty]
      intro he
      rw [← is_empty_iff_members _ _ (hr.1.2.2.1 id hid), hr.1.2.2.2 id hid] at he
      exact Bool.noConfusion he
    have := total_has_run nfa h htot [CHAR_a + i] (fun c hc => by
      rw [List.mem_singleton.1 hc]; omega) _
      (fun q hq => members_subset _ _ (hr.1.2.2.1 id hid) q hq) hS
    exact this
  · obtain ⟨j, hj, hrun, hm⟩ := run_reaches_set nfa h r hr w hw hne
    exact ⟨j, by rw [(materialize_spec nfa 0 r).2.1]; exact hj, hrun, hm⟩

theorem c19_total_input_same_language_witness :
    nfa_total nfa_total_example ∧
    ∃ r dfa, discover 4 nfa_total_example = some r ∧
      convert_nfa_to_dfa 4 nfa_total_example = some dfa ∧
      (∀ id i, id < r.size → i < nfa_total_example.alphabet_size →
        is_dfa_state_empty
          (move_set nfa_total_example (get_dfa_state_from_registry_by_id r id) i) = false) ∧
      (nfa_accepts nfa_total_example [97, 97] = true ↔ dfa_accepts dfa [97, 97] = true) ∧
      ∃ j, j < dfa.state_number ∧ dfa_run dfa dfa.initial_state [97, 97] = some j ∧
        members (get_dfa_state_from_registry_by_id r j)
          = move_word nfa_total_example {nfa_total_example.initial_state} [97, 97] :=
  ⟨by decide,
    c19_total_input_same_language nfa_total_example 4 [97, 97] (by decide) (by decide)
      (by decide) (by decide)⟩

/-- C20: for a well-formed NFA with `n` states the discovery loop ends (with
fuel `2 ^ n` it returns a registry), every registered set is non-empty and has
only members below `n`, and the `state_number` of the DFA is at least 1 and at
most `2 ^ n - 1`. -/
theorem c20_discovery_terminates_and_size_bound (nfa : finite_automata) (fuel : Nat)
    (h : nfa_wf nfa) (hf : 2 ^ nfa.state_number ≤ fuel) :
    ∃ r dfa, discover fuel nfa = some r ∧ convert_nfa_to_dfa fuel nfa = some dfa ∧
      dfa.state_number = r.size ∧
      (∀ id, id < r.size →
        (members (get_dfa_state_from_registry_by_id r id)).Nonempty ∧
        is_dfa_state_empty (get_dfa_state_from_registry_by_id r id) = false ∧
        ∀ q ∈ members (get_dfa_state_from_registry_by_id r id), q < nfa.state_number) ∧
      1 ≤ dfa.state_number ∧ dfa.state_number ≤ 2 ^ nfa.state_number - 1 := by
  obtain ⟨r, hd, hr, hc⟩ := convert_spec nfa h fuel hf
  have hsz := (materialize_spec nfa 0 r).2.1
  have hb := registry_size_bound nfa.state_number r hr.1
  have h1 := hr.2.1
  refine ⟨r, _, hd, hc, hsz, fun id hid => ⟨?_, hr.1.2.2.2 id hid,
    fun q hq => members_subset _ _ (hr.1.2.2.1 id hid) q hq⟩, by omega, by omega⟩
  rw [Set.nonempty_iff_ne_empty]
  intro he
  rw [← is_empty_iff_members _ _ (hr.1.2.2.1 id hid), hr.1.2.2.2 id hid] at he
  exact Bool.noConfusion he

theorem c20_discovery_terminates_and_size_bound_witness :
    ∃ r dfa, discover 4 nfa_scenario = some r ∧ convert_nfa_to_dfa 4 nfa_scenario = some dfa ∧
      dfa.state_number = r.size ∧
      (∀ id, id < r.size →
        (members (get_dfa_state_from_registry_by_id r id)).Nonempty ∧
        is_dfa_state_empty (get_dfa_state_from_registry_by_id r id) = false ∧
        ∀ q ∈ members (get_dfa_state_from_registry_by_id r id), q < nfa_scenario.state_number) ∧
      1 ≤ dfa.state_number ∧ dfa.state_number ≤ 2 ^ nfa_scenario.state_number - 1 :=
  c20_discovery_terminates_and_size_bound nfa_scenario 4 (by decide) (by decide)

/-! ## Malformed files (C12) -/

theorem process_file_rejects_bad_header (fuel : Nat) (file : scanned_file)
    (header : file_header) (hh : file.header = some header)
    (hbad : header.alphabet_size < 1 ∨ header.alphabet_size > MAX_ALPHABET_SIZE
      ∨ header.initial_state ≥ header.state_number) :
    process_file fuel file = some { returned := FAILED_TO_PROCESS_FILE, converted := none } := by
  have : read_automaton file = none := by
    unfold read_automaton
    rw [hh]
    simp only [if_pos hbad]
  unfold process_file
  rw [this]

/-- C12 (the code at a failing input): the file with alphabet size 1, one
state, and the transition line `0 b 0` is not rejected.  `process_file` builds
an automaton with a transition whose symbol `b` is outside the alphabet, runs
the conversion on it and returns `SUCCESSFUL_FILE_PROCESSING`. -/
theorem c12_symbol_out_of_range_is_converted :
    read_automaton file_symbol_out_of_range = some nfa_symbol_out_of_range ∧
      ¬ nfa_wf nfa_symbol_out_of_range ∧
      (∃ t ∈ transitions_of nfa_symbol_out_of_range 0,
        ¬ t.symbol < CHAR_a + nfa_symbol_out_of_range.alphabet_size) ∧
      process_file 2 file_symbol_out_of_range
        = some { returned := SUCCESSFUL_FILE_PROCESSING,
                 converted := some (nfa_symbol_out_of_range, dfa_symbol_out_of_range) } ∧
      SUCCESSFUL_FILE_PROCESSING ≠ FAILED_TO_PROCESS_FILE := by
  decide

end SysProgLab2
